import Mathlib

/-!
Verification development for the scivalidate researcher knowledge base.

The definitions below are shallow embeddings of the Python source:

* `parseAcademicName`   embeds `DatabaseManager.parse_academic_name`
  (src/src/database/database_populator_4.py, lines 859-909);
* `calculateHIndex`     embeds `_calculate_h_index` (lines 2404-2434);
* `storeIdentifiers`    embeds `store_identifiers` (lines 1080-1212),
  with an explicit fault-injection point (`failAt`) standing for an
  arbitrary non-IntegrityError `sqlite3.Error` raised by the k-th executed
  statement, because the function's outer handler swallows those errors;
* `storeResearcherRaced` embeds `store_researcher` (lines 911-1047); the
  `race` parameter stands for rows committed by a concurrent writer
  between the lookup and the insert;
* `storePublication`    embeds `store_publication` (lines 1254-1363);
* `applyMerge` / `processApprovedMerges` embed step 4 of
  `cleanup_database` (src/src/database/database_cleanup.py, lines 106-149);
* `recencyFactor`       embeds the recency component of
  `calculate_reputation_scores` (src/src/analysis/author_analyzer.py,
  lines 349-353);
* `normalizeFieldScores` embeds the normalization tail of
  `calculate_field_scores` (database_populator_4.py, lines 508-516).

Modelling conventions: SQL TEXT is `String`, nullable columns are
`Option`, REAL is `ℚ` (float arithmetic in the embedded fragments is
exact decimal arithmetic, faithfully represented by rationals), INTEGER
is `ℤ`, tables are row lists in insertion order, a SQL `SELECT ...
fetchone()` is `List.find?`, and `uuid.uuid4()` is a fresh id drawn from
the `nextId` counter (uuid collisions are assumed not to happen; where a
proof needs that, it is an explicit hypothesis). Timestamp columns are
omitted: no claim mentions them.
-/

/-- Python truthiness of an optional string: `None` and `""` are falsy. -/
def optTruthy : Option String → Bool
  | none => false
  | some s => s ≠ ""

/-! ### Python `str.split()` / `' '.join` on character lists -/

/-- Helper for whitespace splitting: returns the word prefix currently being
built together with the finished words, scanning from the right. -/
def splitWsCore : List Char → (List Char × List (List Char))
  | [] => ([], [])
  | c :: cs =>
    let p := splitWsCore cs
    if c.isWhitespace then ([], if p.1 = [] then p.2 else p.1 :: p.2)
    else (c :: p.1, p.2)

/-- Python `s.split()` (split on whitespace runs, dropping empty chunks). -/
def pySplitCL (l : List Char) : List (List Char) :=
  let p := splitWsCore l
  if p.1 = [] then p.2 else p.1 :: p.2

/-- Python `' '.join(words)`. -/
def joinSpace : List (List Char) → List Char
  | [] => []
  | [w] => w
  | w :: ws => w ++ ' ' :: joinSpace ws

/-! ### Name parsing (`parse_academic_name`) -/

/-- Result of `parse_academic_name`: the four name components. -/
structure NameParts where
  givenName : String
  familyName : String
  middleNames : Option String
  nameSuffix : Option String
deriving DecidableEq, Repr

/-- The fixed suffix set `{'jr', 'sr', 'ii', 'iii', 'iv', 'v'}`. -/
def suffixStrs : List (List Char) :=
  ["jr".data, "sr".data, "ii".data, "iii".data, "iv".data, "v".data]

/-- The source's suffix test: `parts[-1].lower().replace('.', '') in suffixes`
(lowercase, then remove every period). -/
def codeIsSuffix (t : List Char) : Bool :=
  suffixStrs.contains ((t.map Char.toLower).filter (fun c => c != '.'))

/-- The spec's phrasing of the suffix test: last token compared
case-insensitively with its trailing `"."` stripped. -/
def stripTrailingDot (t : List Char) : List Char :=
  if t.getLast? = some '.' then t.dropLast else t

/-- Decidable form of the claim's suffix condition. -/
def claimIsSuffix (t : List Char) : Bool :=
  suffixStrs.contains ((stripTrailingDot t).map Char.toLower)

/-- Embedding of `parse_academic_name`.  `none` corresponds to the Python
`IndexError` raised on a whitespace-only input (`parts[-1]` on `[]`). -/
def parseAcademicName (fullName : String) : Option NameParts :=
  -- name = ' '.join(full_name.split()); parts = name.split()
  let parts := pySplitCL (joinSpace (pySplitCL fullName.data))
  match parts with
  | [] => none
  | [t] => some ⟨String.mk t, String.mk t, none, none⟩
  | _ =>
    let lastTok := parts.getLast!
    let popped := codeIsSuffix lastTok
    let suf : Option String := if popped then some (String.mk lastTok) else none
    let rest := if popped then parts.dropLast else parts
    let family := rest.getLast!
    let given := rest.head!
    let middle : Option String :=
      if 2 < rest.length then some (String.mk (joinSpace (rest.drop 1).dropLast)) else none
    some ⟨String.mk given, String.mk family, middle, suf⟩

/-! ### h-index (`_calculate_h_index`) -/

/-- Python `sorted(citations, reverse=True)` for integer citation counts
(insertion sort yields exactly the descending rearrangement). -/
def sortDescInt (l : List ℤ) : List ℤ :=
  l.insertionSort (· ≥ ·)

/-- The source loop `for i, c in enumerate(citations, 1): if c >= i:
h_index = i else: break`, with `i` the next 1-based index and `h` the last
successful index. -/
def hIndexAux (i h : ℕ) : List ℤ → ℕ
  | [] => h
  | c :: rest => if (i : ℤ) ≤ c then hIndexAux (i + 1) i rest else h

/-- Embedding of `_calculate_h_index`; each publication is represented by
its optional `citations` entry (`pub.get('citations', 0)`). -/
def calculateHIndex (pubs : List (Option ℤ)) : ℕ :=
  if pubs = [] then 0
  else hIndexAux 1 0 (sortDescInt (pubs.map (fun p => p.getD 0)))

/-- Length of the maximal prefix whose j-th element (0-based) is at least
`i + j`; the value computed by the source loop. -/
def prefLen (i : ℕ) : List ℤ → ℕ
  | [] => 0
  | c :: rest => if (i : ℤ) ≤ c then 1 + prefLen (i + 1) rest else 0

/-! ### Recency factor (`calculate_reputation_scores`, component 4) -/

/-- Embedding of the recency component: `recency_factor = 0.5;
if latest_pub_year > 0: years_since_latest = max(0, current_year -
latest_pub_year); recency_factor = math.exp(-0.14 * years_since_latest)`. -/
noncomputable def recencyFactor (currentYear latestPubYear : ℤ) : ℝ :=
  if 0 < latestPubYear then
    Real.exp (-0.14 * ((max 0 (currentYear - latestPubYear) : ℤ) : ℝ))
  else 0.5

/-! ### Field-score normalization (`calculate_field_scores`, tail) -/

/-- Python `max(scores.values())` over a score dict represented as an
association list (0 on the empty dict, where the source never reads it). -/
def maxVal (scores : List (String × ℚ)) : ℚ :=
  match scores with
  | [] => 0
  | p :: rest => rest.foldl (fun m q => max m q.2) p.2

/-- Embedding of the normalization tail of `calculate_field_scores`:
`if scores: max_score = max(scores.values()); return {field: score/max_score
for field, score in scores.items() if score > max_score * 0.1}; return {}`. -/
def normalizeFieldScores (scores : List (String × ℚ)) : List (String × ℚ) :=
  match scores with
  | [] => []
  | _ =>
    let maxScore := maxVal scores
    scores.filterMap (fun fs =>
      if fs.2 > maxScore * (1 / 10) then some (fs.1, fs.2 / maxScore) else none)

/-! ### Database row types and state -/

/-- Row of `authors` (name/affiliation/metric columns used by the core). -/
structure AuthorRow where
  id : String
  givenName : String
  familyName : String
  middleNames : Option String
  nameSuffix : Option String
  department : Option String
  institution : Option String
  hIndex : Option ℤ
  totalCitations : Option ℤ
deriving DecidableEq, Repr

/-- Row of `author_identifiers`; primary key `(author_id, identifier_type)`,
unique index on `identifier_value` where `identifier_type = 'orcid'`. -/
structure IdRow where
  authorId : String
  idType : String
  value : String
  confidence : Option ℚ
  verStatus : String
  verMethod : Option String
deriving DecidableEq, Repr

/-- Row of `author_publications`; primary key `(author_id, publication_id)`. -/
structure APRow where
  authorId : String
  pubId : String
deriving DecidableEq, Repr

/-- Row of `author_fields`; primary key `(author_id, field_id)`. -/
structure AFRow where
  authorId : String
  fieldId : String
  expertiseScore : Option ℚ
deriving DecidableEq, Repr

/-- Row of `author_collaborations`; primary key `(author1_id, author2_id)`. -/
structure CollabRow where
  author1Id : String
  author2Id : String
deriving DecidableEq, Repr

/-- Row of `merge_candidates`; unique `(primary_author_id, secondary_author_id)`. -/
structure MCRow where
  primaryId : String
  secondaryId : String
  reason : String
  confidence : ℚ
  status : String
deriving DecidableEq, Repr

/-- Row of `publications`; unique index on `doi` where `doi IS NOT NULL`. -/
structure PubRow where
  id : String
  title : String
  venueId : Option String
  year : Option ℤ
  doi : Option String
  citationCount : Option ℤ
  ptype : String
deriving DecidableEq, Repr

/-- Row of `publication_venues` (only the columns the claims touch). -/
structure VenueRow where
  id : String
  name : String
deriving DecidableEq, Repr

/-- The database state: one list per table, in insertion order, plus the
fresh-id counter standing for the `uuid.uuid4()` stream. -/
structure DBState where
  authors : List AuthorRow
  identifiers : List IdRow
  authorPubs : List APRow
  authorFields : List AFRow
  collabs : List CollabRow
  mergeCands : List MCRow
  pubs : List PubRow
  venues : List VenueRow
  nextId : ℕ
deriving DecidableEq, Repr

/-- The empty database. -/
def emptyDB : DBState := ⟨[], [], [], [], [], [], [], [], 0⟩

/-- The next value of the `uuid.uuid4()` stream. -/
def freshId (s : DBState) : String := "uuid-" ++ toString s.nextId

/-! ### `store_identifiers` -/

/-- The ORCID match-status taxonomy (`MatchStatus` enum). -/
inductive MatchStatus where
  | exactMatchDistinctive
  | exactMatchWithInstitution
  | exactMatchCommonName
  | multipleMatches
  | noMatch
  | apiError
deriving DecidableEq, Repr

/-- The fixed `MatchStatus -> (verification_status, confidence, method)`
lookup table, with the `.get(match_status, default)` fallback for `None`. -/
def verificationInfo : Option MatchStatus → String × ℚ × String
  | some .exactMatchWithInstitution => ("verified", 1, "institutional_match")
  | some .exactMatchDistinctive => ("probable", 0.9, "distinctive_name")
  | some .exactMatchCommonName => ("probable", 0.7, "common_name")
  | some .multipleMatches => ("ambiguous", 0.3, "multiple_matches")
  | some .noMatch => ("unverified", 0, "no_match")
  | some .apiError => ("error", 0, "api_error")
  | none => ("unverified", 0, "direct_input")

/-- `INSERT INTO author_identifiers (author_id, 'email', value)`; the other
columns take their schema defaults. -/
def insertEmail (s : DBState) (a e : String) : DBState :=
  { s with identifiers := s.identifiers ++ [⟨a, "email", e, none, "unverified", none⟩] }

/-- `UPDATE author_identifiers SET identifier_value = ? WHERE author_id = ?
AND identifier_type = 'email'`. -/
def updateEmail (s : DBState) (a e : String) : DBState :=
  { s with identifiers := s.identifiers.map (fun r =>
      if r.authorId == a && r.idType == "email" then { r with value := e } else r) }

/-- `INSERT INTO author_identifiers (author_id, 'orcid', ...)` with the
verification metadata. -/
def insertOrcid (s : DBState) (a v : String) (info : String × ℚ × String) : DBState :=
  { s with identifiers :=
      s.identifiers ++ [⟨a, "orcid", v, some info.2.1, info.1, some info.2.2⟩] }

/-- `UPDATE author_identifiers SET ... WHERE author_id = ? AND
identifier_type = 'orcid'`. -/
def updateOrcid (s : DBState) (a v : String) (info : String × ℚ × String) : DBState :=
  { s with identifiers := s.identifiers.map (fun r =>
      if r.authorId == a && r.idType == "orcid" then
        { r with value := v, confidence := some info.2.1,
                 verStatus := info.1, verMethod := some info.2.2 }
      else r) }

/-- Constraint check for the ORCID insert: primary-key conflict on
`(author_id, 'orcid')` or unique-index conflict on the ORCID value. -/
def orcidInsertViolates (s : DBState) (a v : String) : Bool :=
  s.identifiers.any (fun r => r.authorId == a && r.idType == "orcid") ||
  s.identifiers.any (fun r => r.idType == "orcid" && r.value == v)

/-- Whether the author already has an email identifier row (the
`IntegrityError` condition of the email insert). -/
def hasEmailRow (s : DBState) (a : String) : Bool :=
  s.identifiers.any (fun r => r.authorId == a && r.idType == "email")

/-- The email insert-or-update tail of `store_identifiers` (`if email: try
INSERT except IntegrityError: UPDATE`), with `k` the index of the next
executed statement for fault injection.  An `Except.error` carries the
state whose committed statements precede the fault. -/
def emailStep (failAt : Option ℕ) (k : ℕ) (s : DBState) (a : String)
    (email : Option String) : Except DBState DBState :=
  if optTruthy email then
    let e := email.getD ""
    if failAt = some k then .error s
    else if hasEmailRow s a then
      if failAt = some (k + 1) then .error s
      else .ok (updateEmail s a e)
    else .ok (insertEmail s a e)
  else .ok s

/-- The body of `store_identifiers` (its outer `try` block).  Statements
are numbered in execution order; the statement whose index equals `failAt`
raises a non-IntegrityError `sqlite3.Error`, which propagates to the outer
handler.  `IntegrityError`s are deterministic constraint violations and
follow the source's inner handlers.  An `Except.error` carries the state
accumulated by the statements committed before the fault (each statement
runs in its own `with self.conn` transaction). -/
def storeIdentifiersBody (failAt : Option ℕ) (s : DBState) (authorId : String)
    (orcid email : Option String) (ms : Option MatchStatus) : Except DBState DBState :=
  if optTruthy orcid then
    let v := orcid.getD ""
    -- statement 0: SELECT the existing owner of this ORCID value
    if failAt = some 0 then .error s
    else
      match s.identifiers.find? (fun r =>
          r.idType == "orcid" && r.value == v && r.authorId != authorId) with
      | some owner =>
        -- conflict branch; statement 1: INSERT INTO merge_candidates
        if failAt = some 1 then .error s
        else
          let s1 :=
            if s.mergeCands.any (fun mc =>
                mc.primaryId == owner.authorId && mc.secondaryId == authorId) then s
            else { s with mergeCands := s.mergeCands ++
                    [⟨owner.authorId, authorId, "ORCID conflict: " ++ v, 0.9, "pending"⟩] }
          emailStep failAt 2 s1 authorId email
      | none =>
        let info := verificationInfo ms
        -- statement 1: INSERT the ORCID identifier row
        if failAt = some 1 then .error s
        else if orcidInsertViolates s authorId v then
          -- IntegrityError; statement 2: UPDATE the ORCID identifier row
          if failAt = some 2 then .error s
          else emailStep failAt 3 (updateOrcid s authorId v info) authorId email
        else emailStep failAt 2 (insertOrcid s authorId v info) authorId email
  else emailStep failAt 0 s authorId email

/-- `store_identifiers` with its outer `except sqlite3.Error` handler: the
error is logged and swallowed, the function returns `None` either way, and
already-committed statements stay committed. -/
def storeIdentifiers (failAt : Option ℕ) (s : DBState) (authorId : String)
    (orcid email : Option String) (ms : Option MatchStatus) : DBState :=
  match storeIdentifiersBody failAt s authorId orcid email ms with
  | .ok s2 => s2
  | .error sp => sp

/-! ### `store_researcher` -/

/-- The researcher dictionary consumed by `store_researcher`; an absent
dict key is `none`. -/
structure ResearcherInput where
  name : Option String
  givenName : Option String
  familyName : Option String
  middleNames : Option String
  nameSuffix : Option String
  department : Option String
  institution : Option String
  hIndex : Option ℤ
  totalCitations : Option ℤ
  orcid : Option String
  email : Option String
deriving DecidableEq, Repr

/-- Exceptions `store_researcher` can raise. -/
inductive SRErr where
  | valueError
  | integrityError
deriving DecidableEq, Repr

/-- The name-normalization prelude of `store_researcher`: when given or
family name is missing (Python-falsy), parse `researcher['name']`; raise
`ValueError` when no name is available at all (the `IndexError` of
`parse_academic_name` on a blank name is also an error outcome). -/
def normalizeNames (r : ResearcherInput) : Except SRErr ResearcherInput :=
  if !(optTruthy r.givenName) || !(optTruthy r.familyName) then
    match r.name with
    | some nm =>
      match parseAcademicName nm with
      | some np => .ok { r with
          givenName := some np.givenName, familyName := some np.familyName,
          middleNames := np.middleNames, nameSuffix := np.nameSuffix }
      | none => .error .valueError
    | none => .error .valueError
  else .ok r

/-- SQL `institution = ? OR (institution IS NULL AND ? IS NULL)` under
three-valued logic: NULL matches only NULL. -/
def instMatches (rowInst qInst : Option String) : Bool :=
  match rowInst, qInst with
  | some a, some b => a == b
  | none, none => true
  | _, _ => false

/-- The lookup `SELECT id FROM authors WHERE given_name = ? AND family_name
= ? AND (institution = ? OR (institution IS NULL AND ? IS NULL))`,
`fetchone`. -/
def findAuthor (s : DBState) (g f : String) (inst : Option String) : Option AuthorRow :=
  s.authors.find? (fun row =>
    row.givenName == g && row.familyName == f && instMatches row.institution inst)

/-- SQLite `IFNULL(institution, '')` used by the unique index
`idx_authors_unique_name_components`. -/
def ifnullEmpty (o : Option String) : String := o.getD ""

/-- Violation test for the authors unique index on
`(given_name, family_name, IFNULL(institution, ''))`. -/
def authorIndexConflict (s : DBState) (g f : String) (inst : Option String) : Bool :=
  s.authors.any (fun row =>
    row.givenName == g && row.familyName == f &&
    ifnullEmpty row.institution == ifnullEmpty inst)

/-- The update branch of `store_researcher`: overwrite department,
institution, h_index, total_citations and middle_names with the supplied
value when it is present and non-null, keeping the old value otherwise. -/
def mergeUpdateAuthor (r : ResearcherInput) (row : AuthorRow) : AuthorRow :=
  { row with
    department := r.department.or row.department,
    institution := r.institution.or row.institution,
    hIndex := r.hIndex.or row.hIndex,
    totalCitations := r.totalCitations.or row.totalCitations,
    middleNames := r.middleNames.or row.middleNames }

/-- Whether the author already has an ORCID identifier row (the
`existing_orcid` check of the update branch). -/
def hasOrcidRow (s : DBState) (a : String) : Bool :=
  s.identifiers.any (fun r => r.authorId == a && r.idType == "orcid")

/-- The update branch of `store_researcher`: merge-update the found row,
then link the ORCID through `store_identifiers` when one is supplied and
the row has none yet. -/
def updateBranchState (s : DBState) (r : ResearcherInput) (rowId : String) : DBState :=
  let s1 := { s with authors := s.authors.map (fun a =>
      if a.id == rowId then mergeUpdateAuthor r a else a) }
  if optTruthy r.orcid && !(hasOrcidRow s1 rowId) then
    storeIdentifiers none s1 rowId r.orcid r.email none
  else s1

/-- Embedding of `store_researcher`.  `race` stands for rows committed by a
concurrent writer between the existence lookup and the insert (the race the
source's `except sqlite3.IntegrityError` handler recovers from); the
sequential behaviour is `race = []`.  Returns the author id and the new
state, or the uncaught exception. -/
def storeResearcherRaced (race : List AuthorRow) (s : DBState)
    (rin : ResearcherInput) : Except SRErr (String × DBState) :=
  match normalizeNames rin with
  | .error e => .error e
  | .ok r =>
    let g := r.givenName.getD ""
    let f := r.familyName.getD ""
    match findAuthor s g f r.institution with
    | some row =>
      -- existing researcher: merge-update, then link the ORCID if absent
      .ok (row.id, updateBranchState s r row.id)
    | none =>
      -- new researcher: the racing writer commits first, then our INSERT
      let sR := { s with authors := s.authors ++ race }
      let newId := freshId s
      if authorIndexConflict sR g f r.institution then
        -- IntegrityError: re-query by name components
        match findAuthor sR g f r.institution with
        | some row => .ok (row.id, sR)
        | none => .error .integrityError
      else
        let s1 := { sR with
          authors := sR.authors ++
            [⟨newId, g, f, r.middleNames, r.nameSuffix, r.department,
              r.institution, r.hIndex, r.totalCitations⟩],
          nextId := sR.nextId + 1 }
        let s2 :=
          if optTruthy r.orcid then storeIdentifiers none s1 newId r.orcid r.email none
          else s1
        .ok (newId, s2)

/-- `store_researcher` without concurrent interference. -/
def storeResearcher (s : DBState) (rin : ResearcherInput) : Except SRErr (String × DBState) :=
  storeResearcherRaced [] s rin

/-! ### `store_publication` -/

/-- The publication payload consumed by `store_publication`; `venue` is the
optional (truthy) venue dict, carrying its optional `name`. -/
structure PubInput where
  title : Option String
  doi : Option String
  citations : Option ℤ
  year : Option ℤ
  ptype : Option String
  venue : Option (Option String)
deriving DecidableEq, Repr

/-- The placeholder title substituted for a DOI-only publication. -/
def phTitle (doi : String) : String := "Publication with DOI: " ++ doi

/-- Character-level prefix test. -/
def leadsWith : List Char → List Char → Bool
  | [], _ => true
  | _ :: _, [] => false
  | a :: pre, b :: rest => a == b && leadsWith pre rest

/-- Python `existing['title'].startswith("Publication with DOI:")`. -/
def titleIsPh (t : String) : Bool := leadsWith "Publication with DOI:".data t.data

/-- `store_venue`: reject a nameless venue, otherwise insert a fresh venue
row unconditionally. -/
def storeVenue (s : DBState) (name : Option String) : Option String × DBState :=
  if optTruthy name then
    let vid := freshId s
    (some vid, { s with venues := s.venues ++ [⟨vid, name.getD ""⟩],
                        nextId := s.nextId + 1 })
  else (none, s)

/-- The effective title after the placeholder substitution
(`pub_data['title']` at the dedup check). -/
def effTitleOf (p : PubInput) : String :=
  if !(optTruthy p.title) && optTruthy p.doi then phTitle (p.doi.getD "")
  else p.title.getD ""

/-- Embedding of `store_publication`.  Returns `(stored id?, state)`;
`Except.error` is the re-raised `IntegrityError` of the insert handler
(reachable only through the falsy-DOI corner the handler does not cover).  -/
def storePublication (s : DBState) (p : PubInput) : Except Unit (Option String × DBState) :=
  let doiT := optTruthy p.doi
  let d := p.doi.getD ""
  -- placeholder substitution / rejection
  if !(optTruthy p.title) && !doiT then .ok (none, s)
  else
    let effTitle := effTitleOf p
    let dedup := if doiT then s.pubs.find? (fun row => row.doi == some d) else none
    match dedup with
    | some row =>
      -- existing publication: update title/citations as needed
      let doTitle := !(effTitle == "") && !(row.title == "") && titleIsPh row.title
      let newC := p.citations.getD 0
      let doCit := decide (row.citationCount.getD 0 < newC)
      let s1 := { s with pubs := s.pubs.map (fun q =>
          if q.id == row.id then
            { q with title := if doTitle then effTitle else q.title,
                     citationCount := if doCit then some newC else q.citationCount }
          else q) }
      .ok (some row.id, s1)
    | none =>
      -- new publication: pub_id = uuid4(), then the venue, then the insert
      let pid := freshId s
      let s0 := { s with nextId := s.nextId + 1 }
      let vs := match p.venue with
        | some vname => storeVenue s0 vname
        | none => (none, s0)
      let s1 := vs.2
      if p.doi.isSome && s1.pubs.any (fun row => row.doi == p.doi) then
        -- IntegrityError on the DOI unique index
        if doiT then
          match s1.pubs.find? (fun row => row.doi == some d) with
          | some row => .ok (some row.id, s1)
          | none => .error ()
        else .error ()
      else
        .ok (some pid, { s1 with pubs := s1.pubs ++
          [⟨pid, effTitle, vs.1, p.year, p.doi, some (p.citations.getD 0),
            p.ptype.getD "article"⟩] })

/-! ### Merge execution (`cleanup_database`, step 4) -/

section UpdateOrIgnore

variable {α : Type} (refOf : α → String) (sndOf : α → String) (setRef : String → α → α)

/-- One `UPDATE OR IGNORE t SET ref = prim WHERE ref = sec` over a table
whose primary key is `(refOf, sndOf)`: rows are visited in order; a row
whose updated key collides with the current table contents (processed rows
in `done`, unprocessed rows in the tail) is skipped, as SQLite's `OR
IGNORE` conflict resolution does. -/
def uoiAux (prim sec : String) (done : List α) : List α → List α
  | [] => done.reverse
  | r :: rest =>
    if refOf r == sec then
      let r' := setRef prim r
      if (done ++ rest).any (fun q => refOf q == refOf r' && sndOf q == sndOf r') then
        uoiAux prim sec (r :: done) rest
      else uoiAux prim sec (r' :: done) rest
    else uoiAux prim sec (r :: done) rest

/-- `UPDATE OR IGNORE ... SET ref = prim WHERE ref = sec`. -/
def updateOrIgnore (prim sec : String) (tbl : List α) : List α :=
  uoiAux refOf sndOf setRef prim sec [] tbl

end UpdateOrIgnore

/-- Primary-key distinctness of a table under the `(refOf, sndOf)` key
(two rows never share both components). -/
def pwKeys {α : Type} (refOf sndOf : α → String) (tbl : List α) : Prop :=
  tbl.Pairwise (fun a b => ¬(refOf a = refOf b ∧ sndOf a = sndOf b))

/-- One approved merge from `cleanup_database` step 4: the five
`UPDATE OR IGNORE` statements, the unconditional delete of the secondary
author (the script never enables `PRAGMA foreign_keys`, so nothing
cascades), and the status update of the merge candidate. -/
def applyMerge (prim sec : String) (s : DBState) : DBState :=
  let ids2 := updateOrIgnore (fun r : IdRow => r.authorId) (fun r => r.idType)
    (fun a r => { r with authorId := a }) prim sec s.identifiers
  let aps2 := updateOrIgnore (fun r : APRow => r.authorId) (fun r => r.pubId)
    (fun a r => { r with authorId := a }) prim sec s.authorPubs
  let afs2 := updateOrIgnore (fun r : AFRow => r.authorId) (fun r => r.fieldId)
    (fun a r => { r with authorId := a }) prim sec s.authorFields
  let col1 := updateOrIgnore (fun r : CollabRow => r.author1Id) (fun r => r.author2Id)
    (fun a r => { r with author1Id := a }) prim sec s.collabs
  let col2 := updateOrIgnore (fun r : CollabRow => r.author2Id) (fun r => r.author1Id)
    (fun a r => { r with author2Id := a }) prim sec col1
  { s with
    identifiers := ids2, authorPubs := aps2, authorFields := afs2, collabs := col2,
    authors := s.authors.filter (fun a => !(a.id == sec)),
    mergeCands := s.mergeCands.map (fun mc =>
      if mc.primaryId == prim && mc.secondaryId == sec then
        { mc with status := "completed" }
      else mc) }

/-- Step 4 of `cleanup_database`: fetch the approved merge candidates once,
then apply each merge in order. -/
def processApprovedMerges (s : DBState) : DBState :=
  let merges := (s.mergeCands.filter (fun mc => mc.status == "approved")).map
    (fun mc => (mc.primaryId, mc.secondaryId))
  merges.foldl (fun st pr => applyMerge pr.1 pr.2 st) s

/-- States agreeing on every table except `author_identifiers` and
`merge_candidates` (the only tables `store_identifiers` writes). -/
def sameCore (s t : DBState) : Prop :=
  t.authors = s.authors ∧ t.authorPubs = s.authorPubs ∧
  t.authorFields = s.authorFields ∧ t.collabs = s.collabs ∧
  t.pubs = s.pubs ∧ t.venues = s.venues ∧ t.nextId = s.nextId

/-! ## Theorems -/

/-! ### C5: h-index -/

theorem hIndexAux_eq_prefLen (d : List ℤ) : ∀ i : ℕ, hIndexAux (i + 1) i d = i + prefLen (i + 1) d := by
  induction d with
  | nil => intro i; simp [hIndexAux, prefLen]
  | cons c rest ih =>
    intro i
    by_cases h : ((i + 1 : ℕ) : ℤ) ≤ c
    · simp only [hIndexAux, prefLen, if_pos h]
      rw [ih (i + 1)]
      omega
    · simp only [hIndexAux, prefLen, if_neg h]
      omega

theorem prefLen_le_length (d : List ℤ) : ∀ i : ℕ, prefLen i d ≤ d.length := by
  induction d with
  | nil => intro i; simp [prefLen]
  | cons c rest ih =>
    intro i
    by_cases h : ((i : ℕ) : ℤ) ≤ c
    · simp only [prefLen, if_pos h, List.length_cons]
      have := ih (i + 1)
      omega
    · simp only [prefLen, if_neg h, List.length_cons]
      omega

theorem prefLen_spec (d : List ℤ) : ∀ i j : ℕ, j < prefLen i d → ((i + j : ℕ) : ℤ) ≤ d.getD j 0 := by
  induction d with
  | nil => intro i j hj; simp [prefLen] at hj
  | cons c rest ih =>
    intro i j hj
    by_cases h : ((i : ℕ) : ℤ) ≤ c
    · simp only [prefLen, if_pos h] at hj
      match j with
      | 0 => simpa using h
      | j' + 1 =>
        have hj' : j' < prefLen (i + 1) rest := by omega
        have := ih (i + 1) j' hj'
        have harith : i + (j' + 1) = (i + 1) + j' := by omega
        rw [harith]
        simpa using this
    · simp only [prefLen, if_neg h] at hj
      omega

theorem prefLen_ge (d : List ℤ) :
    ∀ i k : ℕ, k ≤ d.length → (∀ j, j < k → ((i + j : ℕ) : ℤ) ≤ d.getD j 0) →
    k ≤ prefLen i d := by
  induction d with
  | nil =>
    intro i k hk _
    simp only [prefLen]
    simp at hk
    omega
  | cons c rest ih =>
    intro i k hk hall
    match k with
    | 0 => omega
    | k' + 1 =>
      have h0 : ((i : ℕ) : ℤ) ≤ c := by simpa using hall 0 (by omega)
      simp only [prefLen, if_pos h0]
      have hrest : k' ≤ prefLen (i + 1) rest := by
        apply ih (i + 1) k' (by simpa using hk)
        intro j hj
        have := hall (j + 1) (by omega)
        have harith : i + (j + 1) = (i + 1) + j := by omega
        rw [harith] at this
        simpa using this
      omega

theorem sorted_getD_antitone (d : List ℤ) (hs : List.Sorted (· ≥ ·) d)
    (j k : ℕ) (hjk : j ≤ k) (hk : k < d.length) : d.getD k 0 ≤ d.getD j 0 := by
  rcases eq_or_lt_of_le hjk with rfl | hlt
  · exact le_refl _
  · have hj : j < d.length := lt_trans hlt hk
    have := List.pairwise_iff_get.mp hs ⟨j, hj⟩ ⟨k, hk⟩ hlt
    rw [List.getD_eq_getElem d 0 hk, List.getD_eq_getElem d 0 hj]
    exact this

theorem sortDescInt_sorted (l : List ℤ) : List.Sorted (· ≥ ·) (sortDescInt l) :=
  List.sorted_insertionSort _ l

/-- Claim C5: for every publication list, `_calculate_h_index` returns
exactly the largest 1-indexed rank `i` over the descending-sorted citation
counts with `d[i-1] ≥ i` (0 when no rank qualifies, in particular for the
empty list), and the two spec examples evaluate as stated. -/
theorem c5_h_index_exact :
    (∀ pubs : List (Option ℤ),
      calculateHIndex pubs ≤ (sortDescInt (pubs.map (fun p => p.getD 0))).length ∧
      (calculateHIndex pubs ≠ 0 →
        ((calculateHIndex pubs : ℕ) : ℤ) ≤
          (sortDescInt (pubs.map (fun p => p.getD 0))).getD (calculateHIndex pubs - 1) 0) ∧
      (∀ i : ℕ, 1 ≤ i → i ≤ (sortDescInt (pubs.map (fun p => p.getD 0))).length →
        ((i : ℕ) : ℤ) ≤ (sortDescInt (pubs.map (fun p => p.getD 0))).getD (i - 1) 0 →
        i ≤ calculateHIndex pubs)) ∧
    calculateHIndex [] = 0 ∧
    calculateHIndex [some 10, some 8, some 5, some 4, some 3] = 4 ∧
    calculateHIndex [some 1, some 1, some 1] = 1 := by
  refine ⟨?_, by decide, by decide, by decide⟩
  intro pubs
  by_cases hemp : pubs = []
  · subst hemp
    refine ⟨by decide, by decide, ?_⟩
    intro i h1 h2 _
    simp [sortDescInt, List.insertionSort] at h2
    omega
  · set d := sortDescInt (pubs.map (fun p => p.getD 0)) with hd
    have hcalc : calculateHIndex pubs = prefLen 1 d := by
      simp only [calculateHIndex, if_neg hemp, ← hd]
      have := hIndexAux_eq_prefLen d 0
      simpa using this
    rw [hcalc]
    refine ⟨prefLen_le_length d 1, ?_, ?_⟩
    · intro hne
      have hlt : prefLen 1 d - 1 < prefLen 1 d := by omega
      have := prefLen_spec d 1 (prefLen 1 d - 1) hlt
      have harith : 1 + (prefLen 1 d - 1) = prefLen 1 d := by omega
      rwa [harith] at this
    · intro i h1 hlen hget
      apply prefLen_ge d 1 i hlen
      intro j hj
      have hji : j ≤ i - 1 := by omega
      have hi1 : i - 1 < d.length := by omega
      have hmono := sorted_getD_antitone d (sortDescInt_sorted _) j (i - 1) hji hi1
      have : ((i : ℕ) : ℤ) ≤ d.getD j 0 := le_trans hget hmono
      have harith : ((1 + j : ℕ) : ℤ) ≤ ((i : ℕ) : ℤ) := by
        push_cast
        omega
      exact le_trans harith this

theorem c5_h_index_exact_witness :
    1 ≤ 4 ∧
    4 ≤ (sortDescInt ([some 10, some 8, some 5, some 4, some 3].map
          (fun p : Option ℤ => p.getD 0))).length ∧
    ((4 : ℕ) : ℤ) ≤ (sortDescInt ([some 10, some 8, some 5, some 4, some 3].map
          (fun p : Option ℤ => p.getD 0))).getD (4 - 1) 0 ∧
    4 ≤ calculateHIndex [some 10, some 8, some 5, some 4, some 3] :=
  ⟨by decide, by decide, by decide,
    (c5_h_index_exact.1 [some 10, some 8, some 5, some 4, some 3]).2.2 4
      (by decide) (by decide) (by decide)⟩

/-! ### C8: recency factor -/

/-- Claim C8 counterexample: one year after the latest publication the code
computes `exp(-0.14)`, which differs from the spec's
`exp(-ln 2 / 5 * years_since_latest)`, because `0.14 ≠ ln 2 / 5`. -/
theorem c8_recency_counterexample :
    recencyFactor 2026 2025 ≠
      Real.exp (-(Real.log 2 / 5) * ((max 0 ((2026 : ℤ) - 2025) : ℤ) : ℝ)) := by
  have h1 : recencyFactor 2026 2025 =
      Real.exp (-0.14 * ((max 0 ((2026 : ℤ) - 2025) : ℤ) : ℝ)) := by
    unfold recencyFactor
    rw [if_pos (by norm_num)]
  have hmax : ((max 0 ((2026 : ℤ) - 2025) : ℤ) : ℝ) = 1 := by norm_num
  rw [h1, hmax]
  apply ne_of_lt
  apply Real.exp_lt_exp.mpr
  nlinarith [Real.log_two_lt_d9]

/-- Claim C8 (amended): with a publication year recorded (`latest_pub_year
> 0`) the recency factor is `exp(-0.14 * years_since_latest)` where `0.14`
is the source's rounding of `ln 2 / 5 ≈ 0.1386` (the difference is below
`1/500`); it is `1` at `years_since_latest = 0` and defaults to `0.5`
when no publication year is recorded. -/
theorem c8_recency_factor_amended :
    (∀ currentYear latestPubYear : ℤ, 0 < latestPubYear →
      recencyFactor currentYear latestPubYear =
        Real.exp (-0.14 * ((max 0 (currentYear - latestPubYear) : ℤ) : ℝ)) ∧
      (currentYear ≤ latestPubYear → recencyFactor currentYear latestPubYear = 1)) ∧
    (∀ currentYear latestPubYear : ℤ, latestPubYear ≤ 0 →
      recencyFactor currentYear latestPubYear = 0.5) ∧
    |(0.14 : ℝ) - Real.log 2 / 5| < 1 / 500 := by
  refine ⟨?_, ?_, ?_⟩
  · intro cy lpy hpos
    constructor
    · unfold recencyFactor
      rw [if_pos hpos]
    · intro hle
      unfold recencyFactor
      rw [if_pos hpos]
      have hmax : max 0 (cy - lpy) = (0 : ℤ) := by omega
      rw [hmax]
      norm_num
  · intro cy lpy hle
    unfold recencyFactor
    rw [if_neg (by omega)]
  · rw [abs_sub_lt_iff]
    constructor
    · nlinarith [Real.log_two_gt_d9]
    · nlinarith [Real.log_two_lt_d9]

theorem c8_recency_factor_amended_witness :
    (0 : ℤ) < 2020 ∧ (2020 : ℤ) ≤ 2020 ∧ (0 : ℤ) ≤ 0 ∧
    recencyFactor 2020 2020 = 1 ∧ recencyFactor 2020 0 = 0.5 :=
  ⟨by decide, by decide, by decide,
    (c8_recency_factor_amended.1 2020 2020 (by decide)).2 (by decide),
    c8_recency_factor_amended.2.1 2020 0 (by decide)⟩

/-! ### C9: field-score normalization -/

theorem foldl_max_init_le (l : List (String × ℚ)) :
    ∀ a : ℚ, a ≤ l.foldl (fun m q => max m q.2) a := by
  induction l with
  | nil => intro a; simp
  | cons p rest ih =>
    intro a
    simp only [List.foldl_cons]
    exact le_trans (le_max_left a p.2) (ih (max a p.2))

theorem foldl_max_mem_le (l : List (String × ℚ)) :
    ∀ a : ℚ, ∀ p ∈ l, p.2 ≤ l.foldl (fun m q => max m q.2) a := by
  induction l with
  | nil => intro a p hp; simp at hp
  | cons q rest ih =>
    intro a p hp
    simp only [List.foldl_cons]
    rcases List.mem_cons.mp hp with rfl | hmem
    · exact le_trans (le_max_right a p.2) (foldl_max_init_le rest (max a p.2))
    · exact ih (max a q.2) p hmem

theorem foldl_max_attained (l : List (String × ℚ)) :
    ∀ a : ℚ, l.foldl (fun m q => max m q.2) a = a ∨
      ∃ p ∈ l, l.foldl (fun m q => max m q.2) a = p.2 := by
  induction l with
  | nil => intro a; left; rfl
  | cons q rest ih =>
    intro a
    simp only [List.foldl_cons]
    rcases ih (max a q.2) with heq | ⟨p, hp, heq⟩
    · rcases max_choice a q.2 with hm | hm
      · left; rw [heq, hm]
      · right; exact ⟨q, List.mem_cons_self _ _, by rw [heq, hm]⟩
    · right; exact ⟨p, List.mem_cons_of_mem _ hp, heq⟩

theorem maxVal_is_ub (scores : List (String × ℚ)) :
    ∀ p ∈ scores, p.2 ≤ maxVal scores := by
  match scores with
  | [] => intro p hp; simp at hp
  | q :: rest =>
    intro p hp
    rcases List.mem_cons.mp hp with rfl | hmem
    · exact foldl_max_init_le rest p.2
    · exact foldl_max_mem_le rest q.2 p hmem

theorem maxVal_attained (scores : List (String × ℚ)) (h : scores ≠ []) :
    ∃ f, (f, maxVal scores) ∈ scores := by
  match scores with
  | [] => exact absurd rfl h
  | q :: rest =>
    rcases foldl_max_attained rest q.2 with heq | ⟨p, hp, heq⟩
    · refine ⟨q.1, ?_⟩
      have : maxVal (q :: rest) = q.2 := heq
      rw [this]
      exact List.mem_cons_self _ _
    · refine ⟨p.1, ?_⟩
      have : maxVal (q :: rest) = p.2 := heq
      rw [this]
      exact List.mem_cons_of_mem _ hp

theorem keys_nodup_val_eq {l : List (String × ℚ)} (h : (l.map Prod.fst).Nodup)
    {f : String} {a b : ℚ} (ha : (f, a) ∈ l) (hb : (f, b) ∈ l) : a = b := by
  induction l with
  | nil => simp at ha
  | cons p rest ih =>
    simp only [List.map_cons, List.nodup_cons] at h
    rcases List.mem_cons.mp ha with heqa | hmema
    · rcases List.mem_cons.mp hb with heqb | hmemb
      · rw [← heqa] at heqb
        exact (Prod.mk.injEq _ _ _ _ |>.mp heqb.symm).2
      · exfalso
        apply h.1
        have hpf : p.1 = f := by rw [← heqa]
        rw [hpf]
        exact List.mem_map.mpr ⟨(f, b), hmemb, rfl⟩
    · rcases List.mem_cons.mp hb with heqb | hmemb
      · exfalso
        apply h.1
        have hpf : p.1 = f := by rw [← heqb]
        rw [hpf]
        exact List.mem_map.mpr ⟨(f, a), hmema, rfl⟩
      · exact ih h.2 hmema hmemb

/-- Claim C9: for a non-empty raw score dict (with a positive maximum, as
produced by the positive impact weights), every returned entry is the raw
score divided by the maximum and lies in `[0, 1]`, the maximum-scoring
field is kept with score exactly `1`, any field scoring below 10% of the
maximum is dropped, and the empty dict yields the empty result. -/
theorem c9_expertise_normalization :
    (∀ scores : List (String × ℚ),
      scores ≠ [] → 0 < maxVal scores →
      (∀ f v, (f, v) ∈ normalizeFieldScores scores →
        ∃ q, (f, q) ∈ scores ∧ v = q / maxVal scores ∧ 0 ≤ v ∧ v ≤ 1) ∧
      (∃ f, (f, maxVal scores) ∈ scores ∧ (f, 1) ∈ normalizeFieldScores scores) ∧
      ((scores.map Prod.fst).Nodup →
        ∀ f q, (f, q) ∈ scores → q * 10 < maxVal scores →
        ∀ v, (f, v) ∉ normalizeFieldScores scores)) ∧
    normalizeFieldScores [] = [] := by
  refine ⟨?_, rfl⟩
  intro scores hne hpos
  have hnorm : normalizeFieldScores scores = scores.filterMap (fun fs =>
      if fs.2 > maxVal scores * (1 / 10) then some (fs.1, fs.2 / maxVal scores)
      else none) := by
    match scores with
    | [] => exact absurd rfl hne
    | q :: rest => rfl
  have hinv : ∀ f v, (f, v) ∈ normalizeFieldScores scores →
      ∃ q, (f, q) ∈ scores ∧ q > maxVal scores * (1 / 10) ∧ v = q / maxVal scores := by
    intro f v hv
    rw [hnorm] at hv
    rcases List.mem_filterMap.mp hv with ⟨fs, hfs, heq⟩
    by_cases hgt : fs.2 > maxVal scores * (1 / 10)
    · rw [if_pos hgt] at heq
      have h1 : fs.1 = f := (Prod.mk.injEq _ _ _ _ |>.mp (Option.some.injEq _ _ |>.mp heq)).1
      have h2 : fs.2 / maxVal scores = v := (Prod.mk.injEq _ _ _ _ |>.mp (Option.some.injEq _ _ |>.mp heq)).2
      refine ⟨fs.2, ?_, hgt, h2.symm⟩
      rw [← h1]
      exact hfs
    · rw [if_neg hgt] at heq
      exact absurd heq (by simp)
  refine ⟨?_, ?_, ?_⟩
  · intro f v hv
    rcases hinv f v hv with ⟨q, hq, hgt, heq⟩
    refine ⟨q, hq, heq, ?_, ?_⟩
    · rw [heq]
      apply div_nonneg _ (le_of_lt hpos)
      nlinarith
    · rw [heq]
      rw [div_le_one hpos]
      exact maxVal_is_ub scores (f, q) hq
  · rcases maxVal_attained scores hne with ⟨f, hf⟩
    refine ⟨f, hf, ?_⟩
    rw [hnorm]
    apply List.mem_filterMap.mpr
    refine ⟨(f, maxVal scores), hf, ?_⟩
    have hgt : maxVal scores > maxVal scores * (1 / 10) := by nlinarith
    rw [if_pos hgt]
    congr 1
    rw [Prod.mk.injEq]
    exact ⟨rfl, div_self (ne_of_gt hpos)⟩
  · intro hnod f q hq hlt v hv
    rcases hinv f v hv with ⟨q2, hq2, hgt, _⟩
    have : q2 = q := keys_nodup_val_eq hnod hq2 hq
    rw [this] at hgt
    nlinarith

theorem c9_expertise_normalization_witness :
    ([("a", (40 : ℚ)), ("b", 1)] ≠ []) ∧
    (0 < maxVal [("a", (40 : ℚ)), ("b", 1)]) ∧
    (([("a", (40 : ℚ)), ("b", 1)].map Prod.fst).Nodup) ∧
    (("b", (1 : ℚ)) ∈ [("a", (40 : ℚ)), ("b", 1)]) ∧
    ((1 : ℚ) * 10 < maxVal [("a", (40 : ℚ)), ("b", 1)]) ∧
    ¬ (("b", (1 : ℚ)) ∈ normalizeFieldScores [("a", (40 : ℚ)), ("b", 1)]) :=
  ⟨by decide, by decide, by decide, by decide,
    (one_mul (10 : ℚ)).symm ▸ (by decide : (10 : ℚ) < maxVal [("a", (40 : ℚ)), ("b", 1)]),
    ((c9_expertise_normalization.1 [("a", (40 : ℚ)), ("b", 1)] (by decide)
      (by decide)).2.2 (by decide) "b" 1 (by decide)
      ((one_mul (10 : ℚ)).symm ▸ (by decide : (10 : ℚ) < maxVal [("a", (40 : ℚ)), ("b", 1)]))) 1⟩

/-! ### Helper lemmas about `store_identifiers` -/

theorem storeIdentifiers_of_body_ok {failAt : Option ℕ} {s : DBState} {a : String}
    {o e : Option String} {ms : Option MatchStatus} {s2 : DBState}
    (h : storeIdentifiersBody failAt s a o e ms = .ok s2) :
    storeIdentifiers failAt s a o e ms = s2 := by
  simp [storeIdentifiers, h]

theorem storeIdentifiers_of_body_error {failAt : Option ℕ} {s : DBState} {a : String}
    {o e : Option String} {ms : Option MatchStatus} {sp : DBState}
    (h : storeIdentifiersBody failAt s a o e ms = .error sp) :
    storeIdentifiers failAt s a o e ms = sp := by
  simp [storeIdentifiers, h]

theorem emailStep_out (failAt : Option ℕ) (k : ℕ) (s : DBState) (a : String)
    (email : Option String) (t : DBState)
    (h : emailStep failAt k s a email = .ok t ∨ emailStep failAt k s a email = .error t) :
    t = s ∨ t = updateEmail s a (email.getD "") ∨ t = insertEmail s a (email.getD "") := by
  rcases h with h | h <;>
  · simp only [emailStep] at h
    split_ifs at h <;> simp_all

theorem sameCore_refl (s : DBState) : sameCore s s :=
  ⟨rfl, rfl, rfl, rfl, rfl, rfl, rfl⟩

theorem sameCore_trans {s t u : DBState} (h1 : sameCore s t) (h2 : sameCore t u) :
    sameCore s u := by
  obtain ⟨a1, a2, a3, a4, a5, a6, a7⟩ := h1
  obtain ⟨b1, b2, b3, b4, b5, b6, b7⟩ := h2
  exact ⟨b1.trans a1, b2.trans a2, b3.trans a3, b4.trans a4, b5.trans a5,
    b6.trans a6, b7.trans a7⟩

theorem sameCore_updateEmail (s : DBState) (a e : String) :
    sameCore s (updateEmail s a e) :=
  ⟨rfl, rfl, rfl, rfl, rfl, rfl, rfl⟩

theorem sameCore_insertEmail (s : DBState) (a e : String) :
    sameCore s (insertEmail s a e) :=
  ⟨rfl, rfl, rfl, rfl, rfl, rfl, rfl⟩

theorem sameCore_updateOrcid (s : DBState) (a v : String) (info : String × ℚ × String) :
    sameCore s (updateOrcid s a v info) :=
  ⟨rfl, rfl, rfl, rfl, rfl, rfl, rfl⟩

theorem sameCore_insertOrcid (s : DBState) (a v : String) (info : String × ℚ × String) :
    sameCore s (insertOrcid s a v info) :=
  ⟨rfl, rfl, rfl, rfl, rfl, rfl, rfl⟩

theorem sameCore_mergeCands (s : DBState) (l : List MCRow) :
    sameCore s { s with mergeCands := l } :=
  ⟨rfl, rfl, rfl, rfl, rfl, rfl, rfl⟩

theorem emailStep_core (failAt : Option ℕ) (k : ℕ) (s : DBState) (a : String)
    (email : Option String) (t : DBState)
    (h : emailStep failAt k s a email = .ok t ∨ emailStep failAt k s a email = .error t) :
    sameCore s t := by
  rcases emailStep_out failAt k s a email t h with rfl | rfl | rfl
  · exact sameCore_refl _
  · exact sameCore_updateEmail _ _ _
  · exact sameCore_insertEmail _ _ _

theorem storeIdentifiersBody_core (failAt : Option ℕ) (s : DBState) (a : String)
    (o e : Option String) (ms : Option MatchStatus) (t : DBState)
    (h : storeIdentifiersBody failAt s a o e ms = .ok t ∨
         storeIdentifiersBody failAt s a o e ms = .error t) :
    sameCore s t := by
  by_cases ho : optTruthy o = true
  · rcases hfind : s.identifiers.find? (fun r =>
        r.idType == "orcid" && r.value == (o.getD "") && r.authorId != a) with _ | owner
    · -- no conflicting owner: ORCID upsert then email
      rcases h with h | h <;>
      · simp only [storeIdentifiersBody, ho, if_true, hfind] at h
        split_ifs at h with h1 h2 h3 h4 h5 h6 <;>
          first
          | (simp only [Except.error.injEq] at h; subst h; exact sameCore_refl s)
          | (refine sameCore_trans ?_ (emailStep_core _ _ _ _ _ _ (by tauto))
             first
             | exact sameCore_updateOrcid s a _ _
             | exact sameCore_insertOrcid s a _ _)
    · rcases h with h | h <;>
      · simp only [storeIdentifiersBody, ho, if_true, hfind] at h
        split_ifs at h with h1 h2 h3 <;>
          first
          | (simp only [Except.error.injEq] at h; subst h; exact sameCore_refl s)
          | (refine sameCore_trans ?_ (emailStep_core _ _ _ _ _ _ (by tauto))
             first
             | exact sameCore_refl s
             | exact sameCore_mergeCands s _)
  · rcases h with h | h <;>
    · simp only [storeIdentifiersBody, ho] at h
      exact emailStep_core _ _ _ _ _ _ (by tauto)

theorem storeIdentifiers_core (failAt : Option ℕ) (s : DBState) (a : String)
    (o e : Option String) (ms : Option MatchStatus) :
    sameCore s (storeIdentifiers failAt s a o e ms) := by
  rcases hb : storeIdentifiersBody failAt s a o e ms with sp | s2
  · rw [storeIdentifiers_of_body_error hb]
    exact storeIdentifiersBody_core failAt s a o e ms sp (Or.inr hb)
  · rw [storeIdentifiers_of_body_ok hb]
    exact storeIdentifiersBody_core failAt s a o e ms s2 (Or.inl hb)

/-! ### C10: store_identifiers swallows database errors -/

/-- Claim C10: `store_identifiers` returns normally (Python `None`) for
every input and fault point: a `sqlite3.Error` raised by any statement is
caught by the outer handler, so the caller cannot distinguish failure from
success, and statements committed before the failing one are kept (the
concrete run faults at the email insert after the ORCID insert committed,
and the returned state still contains the ORCID row). -/
theorem c10_store_identifiers_swallows_errors :
    (∀ (failAt : Option ℕ) (s : DBState) (authorId : String)
       (orcid email : Option String) (ms : Option MatchStatus),
      (∀ sp, storeIdentifiersBody failAt s authorId orcid email ms = .error sp →
        storeIdentifiers failAt s authorId orcid email ms = sp) ∧
      (∀ s2, storeIdentifiersBody failAt s authorId orcid email ms = .ok s2 →
        storeIdentifiers failAt s authorId orcid email ms = s2)) ∧
    storeIdentifiersBody (some 2) emptyDB "a" (some "X") (some "e") none =
      .error (insertOrcid emptyDB "a" "X" ("unverified", 0, "direct_input")) ∧
    storeIdentifiers (some 2) emptyDB "a" (some "X") (some "e") none =
      insertOrcid emptyDB "a" "X" ("unverified", 0, "direct_input") ∧
    (storeIdentifiers (some 2) emptyDB "a" (some "X") (some "e") none).identifiers.map
      (fun r => (r.authorId, r.idType, r.value)) = [("a", "orcid", "X")] := by
  refine ⟨?_, rfl, rfl, rfl⟩
  intro failAt s authorId orcid email ms
  exact ⟨fun sp h => storeIdentifiers_of_body_error h,
         fun s2 h => storeIdentifiers_of_body_ok h⟩

theorem c10_store_identifiers_swallows_errors_witness :
    storeIdentifiers (some 2) emptyDB "a" (some "X") (some "e") none =
      insertOrcid emptyDB "a" "X" ("unverified", 0, "direct_input") :=
  (c10_store_identifiers_swallows_errors.1 (some 2) emptyDB "a" (some "X")
    (some "e") none).1
    (insertOrcid emptyDB "a" "X" ("unverified", 0, "direct_input")) rfl

/-! ### C2: ORCID conflict handling -/

theorem filter_orcid_insertEmail (s : DBState) (a e : String) :
    (insertEmail s a e).identifiers.filter (fun r => r.idType == "orcid") =
      s.identifiers.filter (fun r => r.idType == "orcid") := by
  simp [insertEmail, List.filter_append]

theorem filter_orcid_map_email (l : List IdRow) (a e : String) :
    (l.map (fun r => if r.authorId == a && r.idType == "email" then
        { r with value := e } else r)).filter (fun r => r.idType == "orcid") =
      l.filter (fun r => r.idType == "orcid") := by
  induction l with
  | nil => rfl
  | cons r rest ih =>
    simp only [List.map_cons, List.filter_cons]
    by_cases hc : (r.authorId == a && r.idType == "email") = true
    · have he : r.idType = "email" := by
        have := ((Bool.and_eq_true _ _).mp hc).2
        exact beq_iff_eq.mp this
      rw [if_pos hc]
      simp only [List.filter_cons]
      have h1 : (({ r with value := e } : IdRow).idType == "orcid") = false := by
        simp [he]
      have h2 : (r.idType == "orcid") = false := by simp [he]
      simp only [h1, h2, Bool.false_eq_true, if_false]
      exact ih
    · rw [if_neg hc]
      rw [ih]

theorem filter_orcid_updateEmail (s : DBState) (a e : String) :
    (updateEmail s a e).identifiers.filter (fun r => r.idType == "orcid") =
      s.identifiers.filter (fun r => r.idType == "orcid") := by
  simp only [updateEmail]
  exact filter_orcid_map_email s.identifiers a e

theorem emailStep_none_ok (k : ℕ) (s : DBState) (a : String) (email : Option String) :
    emailStep none k s a email = .ok (
      if optTruthy email then
        (if hasEmailRow s a then updateEmail s a (email.getD "")
         else insertEmail s a (email.getD ""))
      else s) := by
  simp only [emailStep]
  split_ifs <;> simp_all

theorem mem_email_updateEmail (s : DBState) (a e : String) (h : hasEmailRow s a = true) :
    ∃ r ∈ (updateEmail s a e).identifiers, r.authorId = a ∧ r.idType = "email" ∧ r.value = e := by
  rcases List.any_eq_true.mp h with ⟨r0, hr0, hcond⟩
  refine ⟨{ r0 with value := e }, ?_, ?_, ?_, rfl⟩
  · simp only [updateEmail]
    apply List.mem_map.mpr
    exact ⟨r0, hr0, by rw [if_pos hcond]⟩
  · exact beq_iff_eq.mp ((Bool.and_eq_true _ _).mp hcond).1
  · exact beq_iff_eq.mp ((Bool.and_eq_true _ _).mp hcond).2

theorem mem_email_insertEmail (s : DBState) (a e : String) :
    ∃ r ∈ (insertEmail s a e).identifiers, r.authorId = a ∧ r.idType = "email" ∧ r.value = e := by
  refine ⟨⟨a, "email", e, none, "unverified", none⟩, ?_, rfl, rfl, rfl⟩
  simp [insertEmail]

theorem updateEmail_mergeCands (s : DBState) (a e : String) :
    (updateEmail s a e).mergeCands = s.mergeCands := rfl

theorem insertEmail_mergeCands (s : DBState) (a e : String) :
    (insertEmail s a e).mergeCands = s.mergeCands := rfl

/-- Claim C2: when the supplied ORCID value is already attached to a
different researcher, `store_identifiers` does not attach it to the
current researcher (the ORCID rows are untouched), records a
MergeCandidate `(existing owner, current id, "ORCID conflict: <value>",
0.9)` unless the pair is already recorded, still stores a supplied email
on the current record, and returns without raising. -/
theorem c2_orcid_conflict :
    ∀ (s : DBState) (authorId v : String) (email : Option String)
      (ms : Option MatchStatus) (ownRow : IdRow),
    v ≠ "" →
    ownRow ∈ s.identifiers →
    ownRow.idType = "orcid" →
    ownRow.value = v →
    ownRow.authorId ≠ authorId →
    (∀ r ∈ s.identifiers, r.idType = "orcid" → r.value = v → r.authorId = ownRow.authorId) →
    (storeIdentifiersBody none s authorId (some v) email ms =
      .ok (storeIdentifiers none s authorId (some v) email ms)) ∧
    ((storeIdentifiers none s authorId (some v) email ms).identifiers.filter
        (fun r => r.idType == "orcid") =
      s.identifiers.filter (fun r => r.idType == "orcid")) ∧
    ((s.mergeCands.any (fun mc =>
        mc.primaryId == ownRow.authorId && mc.secondaryId == authorId)) = true →
      (storeIdentifiers none s authorId (some v) email ms).mergeCands = s.mergeCands) ∧
    ((s.mergeCands.any (fun mc =>
        mc.primaryId == ownRow.authorId && mc.secondaryId == authorId)) = false →
      (storeIdentifiers none s authorId (some v) email ms).mergeCands =
        s.mergeCands ++ [⟨ownRow.authorId, authorId, "ORCID conflict: " ++ v, 0.9, "pending"⟩]) ∧
    (optTruthy email = true →
      ∃ r ∈ (storeIdentifiers none s authorId (some v) email ms).identifiers,
        r.authorId = authorId ∧ r.idType = "email" ∧ r.value = email.getD "") ∧
    (optTruthy email = false →
      (storeIdentifiers none s authorId (some v) email ms).identifiers = s.identifiers) := by
  intro s authorId v email ms ownRow hv hmem hot hov hdiff huniq
  -- the conflict lookup finds a row owned by the existing owner
  have hpown : (fun r : IdRow =>
      r.idType == "orcid" && r.value == v && r.authorId != authorId) ownRow = true := by
    simp only [Bool.and_eq_true, beq_iff_eq, bne_iff_ne]
    exact ⟨⟨hot, hov⟩, hdiff⟩
  have hsome : (s.identifiers.find? (fun r =>
      r.idType == "orcid" && r.value == v && r.authorId != authorId)).isSome :=
    List.find?_isSome.mpr ⟨ownRow, hmem, hpown⟩
  obtain ⟨r0, hfind⟩ := Option.isSome_iff_exists.mp hsome
  have hr0p := List.find?_some hfind
  have hr0mem := List.mem_of_find?_eq_some hfind
  have hr0fields : r0.idType = "orcid" ∧ r0.value = v := by
    simp only [Bool.and_eq_true, beq_iff_eq, bne_iff_ne] at hr0p
    exact hr0p.1
  have hown0 : r0.authorId = ownRow.authorId :=
    huniq r0 hr0mem hr0fields.1 hr0fields.2
  have hov2 : optTruthy (some v) = true := by simp [optTruthy, hv]
  -- the intermediate state after the merge-candidate statement
  set s1 := (if s.mergeCands.any (fun mc =>
      mc.primaryId == r0.authorId && mc.secondaryId == authorId) then s
    else { s with mergeCands := s.mergeCands ++
      [⟨r0.authorId, authorId, "ORCID conflict: " ++ v, 0.9, "pending"⟩] }) with hs1
  have hbody : storeIdentifiersBody none s authorId (some v) email ms =
      emailStep none 2 s1 authorId email := by
    rw [hs1]
    simp only [storeIdentifiersBody, hov2, if_true, Option.getD_some, hfind]
    rfl
  have hs1ids : s1.identifiers = s.identifiers := by
    rw [hs1]; split <;> rfl
  have hs1any : s.mergeCands.any (fun mc =>
      mc.primaryId == r0.authorId && mc.secondaryId == authorId) =
    s.mergeCands.any (fun mc =>
      mc.primaryId == ownRow.authorId && mc.secondaryId == authorId) := by
    rw [hown0]
  -- the final state
  set sf := (if optTruthy email then
      (if hasEmailRow s1 authorId then updateEmail s1 authorId (email.getD "")
       else insertEmail s1 authorId (email.getD ""))
    else s1) with hsf
  have hbodyok : storeIdentifiersBody none s authorId (some v) email ms = .ok sf := by
    rw [hbody, emailStep_none_ok, hsf]
  have hst : storeIdentifiers none s authorId (some v) email ms = sf :=
    storeIdentifiers_of_body_ok hbodyok
  have hmcf : sf.mergeCands = s1.mergeCands := by
    rw [hsf]
    split_ifs <;> simp [updateEmail_mergeCands, insertEmail_mergeCands]
  refine ⟨by rw [hst]; exact hbodyok, ?_, ?_, ?_, ?_, ?_⟩
  · -- ORCID rows untouched
    rw [hst, hsf]
    split_ifs with h1 h2
    · rw [filter_orcid_updateEmail, hs1ids]
    · rw [filter_orcid_insertEmail, hs1ids]
    · rw [hs1ids]
  · -- merge candidate already recorded
    intro hany
    rw [hst, hmcf, hs1]
    rw [hs1any, hany]
    rfl
  · -- merge candidate newly recorded
    intro hany
    rw [hst, hmcf, hs1]
    rw [hs1any, hany]
    simp only [Bool.false_eq_true, if_false]
    rw [hown0]
  · -- email stored
    intro he
    rw [hst, hsf, if_pos he]
    split_ifs with h1
    · rcases mem_email_updateEmail s1 authorId (email.getD "") h1 with ⟨r, hr, hprops⟩
      exact ⟨r, hr, hprops⟩
    · rcases mem_email_insertEmail s1 authorId (email.getD "") with ⟨r, hr, hprops⟩
      exact ⟨r, hr, hprops⟩
  · -- no email supplied: identifiers unchanged
    intro he
    rw [hst, hsf, if_neg (by simp [he]), hs1ids]

theorem c2_orcid_conflict_witness :
    (storeIdentifiers none
        { emptyDB with identifiers := [⟨"owner1", "orcid", "X", none, "unverified", none⟩] }
        "b" (some "X") (some "e") none).mergeCands =
      [⟨"owner1", "b", "ORCID conflict: X", 0.9, "pending"⟩] :=
  (c2_orcid_conflict
    { emptyDB with identifiers := [⟨"owner1", "orcid", "X", none, "unverified", none⟩] }
    "b" "X" (some "e") none ⟨"owner1", "orcid", "X", none, "unverified", none⟩
    (by decide) (by decide) (by decide) (by decide) (by decide)
    (by decide)).2.2.2.1 (by decide)

/-! ### C6: publication deduplication by DOI -/

/-- Claim C6 counterexample: the first ingestion supplies a real title that
happens to start with the placeholder marker; re-ingesting the same DOI
with no title then overwrites that stored, supplied title with the
DOI-derived placeholder — the stored title changes although no real title
was supplied (and the stored title was not this publication's
placeholder). -/
theorem c6_publication_dedup_counterexample :
    storePublication emptyDB
      ⟨some "Publication with DOI: weird", some "d", none, none, none, none⟩ =
      .ok (some "uuid-0",
        { emptyDB with
          pubs := [⟨"uuid-0", "Publication with DOI: weird", none, none,
                    some "d", some 0, "article"⟩],
          nextId := 1 }) ∧
    storePublication
      { emptyDB with
        pubs := [⟨"uuid-0", "Publication with DOI: weird", none, none,
                  some "d", some 0, "article"⟩],
        nextId := 1 }
      ⟨none, some "d", none, none, none, none⟩ =
      .ok (some "uuid-0",
        { emptyDB with
          pubs := [⟨"uuid-0", "Publication with DOI: d", none, none,
                    some "d", some 0, "article"⟩],
          nextId := 1 }) :=
  ⟨rfl, rfl⟩

/-- Claim C6 (amended): re-ingesting a known DOI returns the stored row's
id without creating a row, raises the stored citation count only when the
new value is strictly larger, and overwrites the stored title exactly when
the stored title starts with the placeholder marker `"Publication with
DOI:"` (the replacement being the supplied title, or the DOI-derived
placeholder when no title is supplied); a payload with neither title nor
DOI is rejected with no id and no state change; a payload with a DOI but
no title is stored under the DOI-derived placeholder title. -/
theorem c6_publication_dedup_amended :
    ∀ (s : DBState) (p : PubInput) (d : String) (row : PubRow),
      (optTruthy p.doi = true → p.doi = some d →
        s.pubs.find? (fun q => q.doi == some d) = some row →
        storePublication s p = .ok (some row.id,
          { s with pubs := s.pubs.map (fun q =>
              if q.id == row.id then
                { q with
                  title := if !(effTitleOf p == "") && !(row.title == "") &&
                      titleIsPh row.title then effTitleOf p else q.title,
                  citationCount := if row.citationCount.getD 0 < p.citations.getD 0
                    then some (p.citations.getD 0) else q.citationCount }
              else q) })) ∧
      (optTruthy p.title = false → optTruthy p.doi = false →
        storePublication s p = .ok (none, s)) ∧
      (optTruthy p.title = false → optTruthy p.doi = true → p.doi = some d →
        s.pubs.find? (fun q => q.doi == some d) = none →
        ∃ s2, storePublication s p = .ok (some (freshId s), s2) ∧
          s2.pubs.map (fun q => (q.id, q.title)) =
            s.pubs.map (fun q => (q.id, q.title)) ++ [(freshId s, phTitle d)]) := by
  intro s p d row
  refine ⟨?_, ?_, ?_⟩
  · intro hdT hdoi hfind
    have hdT2 : optTruthy (some d) = true := by rw [← hdoi]; exact hdT
    simp only [storePublication, hdoi, Option.getD_some, hdT2, Bool.not_true,
      Bool.and_false, Bool.false_eq_true, if_false, eq_self_iff_true, if_true, hfind,
      decide_eq_true_eq]
  · intro ht hd
    simp only [storePublication, ht, hd, Bool.not_false, Bool.and_self, if_true]
  · intro ht hdT hdoi hfindnone
    have hdT2 : optTruthy (some d) = true := by rw [← hdoi]; exact hdT
    have heff : effTitleOf p = phTitle d := by
      simp only [effTitleOf, ht, hdT2, hdoi, Option.getD_some, Bool.not_false,
        Bool.true_and, if_true]
    have hany : (s.pubs.any (fun q => q.doi == some d)) = false := by
      apply Bool.eq_false_iff.mpr
      intro h
      rcases List.any_eq_true.mp h with ⟨x, hx, hpx⟩
      exact (List.find?_eq_none.mp hfindnone x hx) hpx
    rcases hv : p.venue with _ | vname
    · have hrun : storePublication s p = .ok (some (freshId s),
          { s with
            pubs := s.pubs ++ [⟨freshId s, effTitleOf p, none, p.year, p.doi,
              some (p.citations.getD 0), p.ptype.getD "article"⟩],
            nextId := s.nextId + 1 }) := by
        simp only [storePublication, hdoi, Option.getD_some, hdT2, Bool.not_true,
          Bool.and_false, Bool.false_eq_true, if_false, eq_self_iff_true, if_true,
          hfindnone, hv, Option.isSome_some, Bool.true_and, hany]
      exact ⟨_, hrun, by simp only [heff, List.map_append, List.map_cons, List.map_nil]⟩
    · by_cases hvn : optTruthy vname = true
      · have hrun : storePublication s p = .ok (some (freshId s),
            { s with
              pubs := s.pubs ++ [⟨freshId s, effTitleOf p,
                some (freshId { s with nextId := s.nextId + 1 }), p.year, p.doi,
                some (p.citations.getD 0), p.ptype.getD "article"⟩],
              venues := s.venues ++
                [⟨freshId { s with nextId := s.nextId + 1 }, vname.getD ""⟩],
              nextId := s.nextId + 1 + 1 }) := by
          simp only [storePublication, hdoi, Option.getD_some, hdT2, Bool.not_true,
            Bool.and_false, Bool.false_eq_true, if_false, eq_self_iff_true, if_true,
            hfindnone, hv, Option.isSome_some, Bool.true_and, storeVenue, hvn, hany]
        exact ⟨_, hrun, by simp only [heff, List.map_append, List.map_cons, List.map_nil]⟩
      · have hrun : storePublication s p = .ok (some (freshId s),
            { s with
              pubs := s.pubs ++ [⟨freshId s, effTitleOf p, none, p.year, p.doi,
                some (p.citations.getD 0), p.ptype.getD "article"⟩],
              nextId := s.nextId + 1 }) := by
          simp only [storePublication, hdoi, Option.getD_some, hdT2, Bool.not_true,
            Bool.and_false, Bool.false_eq_true, if_false, eq_self_iff_true, if_true,
            hfindnone, hv, Option.isSome_some, Bool.true_and, storeVenue, hvn, hany]
        exact ⟨_, hrun, by simp only [heff, List.map_append, List.map_cons, List.map_nil]⟩

theorem c6_publication_dedup_amended_witness :
    storePublication
      { emptyDB with pubs := [⟨"p1", "T", none, none, some "d", some 5, "article"⟩] }
      ⟨some "T2", some "d", some 9, none, none, none⟩ =
      .ok (some "p1",
        { emptyDB with pubs := [⟨"p1", "T", none, none, some "d", some 9, "article"⟩] }) :=
  (c6_publication_dedup_amended
    { emptyDB with pubs := [⟨"p1", "T", none, none, some "d", some 5, "article"⟩] }
    ⟨some "T2", some "d", some 9, none, none, none⟩ "d"
    ⟨"p1", "T", none, none, some "d", some 5, "article"⟩).1 (by decide) rfl (by decide)

/-! ### C4: uniqueness-violation recovery in store_researcher -/

theorem find?_append_singleton {α : Type} (p : α → Bool) (l : List α) (a : α)
    (hl : ∀ x ∈ l, p x = false) (ha : p a = true) :
    (l ++ [a]).find? p = some a := by
  induction l with
  | nil => simp [List.find?, ha]
  | cons x xs ih =>
    have hx := hl x (List.mem_cons_self _ _)
    simp only [List.cons_append, List.find?, hx]
    exact ih (fun y hy => hl y (List.mem_cons_of_mem _ hy))

theorem normalizeNames_of_truthy (r : ResearcherInput)
    (hg : optTruthy r.givenName = true) (hf : optTruthy r.familyName = true) :
    normalizeNames r = .ok r := by
  simp [normalizeNames, hg, hf]

theorem instMatches_ifnull {a b : Option String} (h : instMatches a b = true) :
    ifnullEmpty a = ifnullEmpty b := by
  cases a <;> cases b <;> simp_all [instMatches, ifnullEmpty]

/-- Claim C4: when a concurrent writer inserts a row with the same (given
name, family name, institution) between the lookup and the insert, the
insert's uniqueness violation is absorbed: `store_researcher` re-queries by
name components and returns the winning row's id, adds no row of its own,
and surfaces no error. -/
theorem c4_insert_race_recovery :
    ∀ (s : DBState) (r : ResearcherInput) (q : AuthorRow),
      optTruthy r.givenName = true →
      optTruthy r.familyName = true →
      findAuthor s (r.givenName.getD "") (r.familyName.getD "") r.institution = none →
      q.givenName = r.givenName.getD "" →
      q.familyName = r.familyName.getD "" →
      instMatches q.institution r.institution = true →
      storeResearcherRaced [q] s r = .ok (q.id, { s with authors := s.authors ++ [q] }) := by
  intro s r q hg hf hfind hqg hqf hqi
  have hnorm := normalizeNames_of_truthy r hg hf
  have hpq : (fun row : AuthorRow =>
      row.givenName == r.givenName.getD "" && row.familyName == r.familyName.getD "" &&
      instMatches row.institution r.institution) q = true := by
    simp only [Bool.and_eq_true, beq_iff_eq]
    exact ⟨⟨hqg, hqf⟩, hqi⟩
  have hallfail : ∀ x ∈ s.authors, (fun row : AuthorRow =>
      row.givenName == r.givenName.getD "" && row.familyName == r.familyName.getD "" &&
      instMatches row.institution r.institution) x = false := by
    intro x hx
    have := List.find?_eq_none.mp hfind x hx
    exact Bool.eq_false_iff.mpr this
  have hfindq : findAuthor { s with authors := s.authors ++ [q] }
      (r.givenName.getD "") (r.familyName.getD "") r.institution = some q := by
    simp only [findAuthor]
    exact find?_append_singleton _ s.authors q hallfail hpq
  have hconf : authorIndexConflict { s with authors := s.authors ++ [q] }
      (r.givenName.getD "") (r.familyName.getD "") r.institution = true := by
    simp only [authorIndexConflict]
    apply List.any_eq_true.mpr
    refine ⟨q, by simp, ?_⟩
    simp only [Bool.and_eq_true, beq_iff_eq]
    exact ⟨⟨hqg, hqf⟩, instMatches_ifnull hqi⟩
  simp only [storeResearcherRaced, hnorm, hfind, hconf, if_true, hfindq]

theorem c4_insert_race_recovery_witness :
    storeResearcherRaced [⟨"idq", "John", "Smith", none, none, none, none, none, none⟩]
      emptyDB
      ⟨none, some "John", some "Smith", none, none, none, none, none, none, none, none⟩ =
      .ok ("idq", { emptyDB with
        authors := [⟨"idq", "John", "Smith", none, none, none, none, none, none⟩] }) :=
  c4_insert_race_recovery emptyDB
    ⟨none, some "John", some "Smith", none, none, none, none, none, none, none, none⟩
    ⟨"idq", "John", "Smith", none, none, none, none, none, none⟩
    (by decide) (by decide) rfl rfl rfl (by decide)

/-! ### C3: store_researcher create-or-find idempotence -/

theorem instMatches_refl (o : Option String) : instMatches o o = true := by
  cases o <;> simp [instMatches]

theorem instMatches_or {a b : Option String} (h : instMatches a b = true) :
    instMatches (b.or a) b = true := by
  cases a <;> cases b <;> simp_all [instMatches, Option.or]

theorem find?_map_first (p : AuthorRow → Bool) (φ : AuthorRow → AuthorRow)
    (hφid : ∀ x, (φ x).id = x.id) :
    ∀ (l : List AuthorRow) (row : AuthorRow), l.find? p = some row →
      p (φ row) = true →
      (∀ x, p x = false → p (φ x) = true → x.id = row.id) →
      ∃ row2, (l.map φ).find? p = some row2 ∧ row2.id = row.id := by
  intro l
  induction l with
  | nil => intro row h; simp at h
  | cons x xs ih =>
    intro row hfind hrow hflip
    cases hpx : p x with
    | false =>
      have hfind' : xs.find? p = some row := by
        rwa [List.find?_cons_of_neg _ (by simp [hpx])] at hfind
      cases hpφx : p (φ x) with
      | false =>
        rcases ih row hfind' hrow hflip with ⟨row2, h2, hid⟩
        refine ⟨row2, ?_, hid⟩
        rw [List.map_cons, List.find?_cons_of_neg _ (by simp [hpφx])]
        exact h2
      | true =>
        refine ⟨φ x, ?_, ?_⟩
        · rw [List.map_cons, List.find?_cons_of_pos _ hpφx]
        · rw [hφid x]
          exact hflip x hpx hpφx
    | true =>
      have hrx : x = row := by
        rw [List.find?_cons_of_pos _ hpx] at hfind
        exact Option.some.injEq _ _ |>.mp hfind
      subst hrx
      refine ⟨φ x, ?_, hφid x⟩
      rw [List.map_cons, List.find?_cons_of_pos _ hrow]

theorem authors_after_orcid (s' : DBState) (c : Bool) (aid : String) (o e : Option String) :
    (if c then storeIdentifiers none s' aid o e none else s').authors = s'.authors := by
  cases c
  · simp
  · simp only [if_true]
    exact (storeIdentifiers_core none s' aid o e none).1

theorem updateBranchState_authors (s : DBState) (r : ResearcherInput) (rowId : String) :
    (updateBranchState s r rowId).authors = s.authors.map (fun a =>
      if a.id == rowId then mergeUpdateAuthor r a else a) := by
  simp only [updateBranchState]
  exact authors_after_orcid _ _ _ _ _

theorem mergeUpdateAuthor_props (r : ResearcherInput) (a : AuthorRow) :
    (mergeUpdateAuthor r a).id = a.id ∧
    (mergeUpdateAuthor r a).givenName = a.givenName ∧
    (mergeUpdateAuthor r a).familyName = a.familyName ∧
    (mergeUpdateAuthor r a).nameSuffix = a.nameSuffix ∧
    (mergeUpdateAuthor r a).department = r.department.or a.department ∧
    (mergeUpdateAuthor r a).institution = r.institution.or a.institution ∧
    (mergeUpdateAuthor r a).hIndex = r.hIndex.or a.hIndex ∧
    (mergeUpdateAuthor r a).totalCitations = r.totalCitations.or a.totalCitations ∧
    (mergeUpdateAuthor r a).middleNames = r.middleNames.or a.middleNames ∧
    (a.department.isSome = true → (mergeUpdateAuthor r a).department.isSome = true) ∧
    (a.institution.isSome = true → (mergeUpdateAuthor r a).institution.isSome = true) ∧
    (a.hIndex.isSome = true → (mergeUpdateAuthor r a).hIndex.isSome = true) ∧
    (a.totalCitations.isSome = true → (mergeUpdateAuthor r a).totalCitations.isSome = true) ∧
    (a.middleNames.isSome = true → (mergeUpdateAuthor r a).middleNames.isSome = true) := by
  refine ⟨rfl, rfl, rfl, rfl, rfl, rfl, rfl, rfl, rfl, ?_, ?_, ?_, ?_, ?_⟩ <;>
  · intro h
    simp only [mergeUpdateAuthor, Option.isSome_or, h, Bool.or_true]

/-- Claim C3: a second `store_researcher` call with the same (given name,
family name, institution) key — NULL institution matching only NULL —
returns the id the first call returned and creates no new authors row
(the authors table is only merge-updated row-wise); the merge-update
overwrites each of the updatable fields only when the second call supplies
it non-null, so it never nulls out an existing value. -/
theorem c3_store_researcher_idempotent :
    ∀ (s : DBState) (r1 r2 : ResearcherInput) (id1 : String) (s1 : DBState),
      optTruthy r1.givenName = true →
      optTruthy r1.familyName = true →
      r2.givenName = r1.givenName →
      r2.familyName = r1.familyName →
      r2.institution = r1.institution →
      storeResearcher s r1 = .ok (id1, s1) →
      ∃ s2, storeResearcher s1 r2 = .ok (id1, s2) ∧
        s2.authors = s1.authors.map (fun a =>
          if a.id == id1 then mergeUpdateAuthor r2 a else a) ∧
        s2.authors.length = s1.authors.length ∧
        (∀ a : AuthorRow,
          (mergeUpdateAuthor r2 a).id = a.id ∧
          (mergeUpdateAuthor r2 a).givenName = a.givenName ∧
          (mergeUpdateAuthor r2 a).familyName = a.familyName ∧
          (mergeUpdateAuthor r2 a).nameSuffix = a.nameSuffix ∧
          (mergeUpdateAuthor r2 a).department = r2.department.or a.department ∧
          (mergeUpdateAuthor r2 a).institution = r2.institution.or a.institution ∧
          (mergeUpdateAuthor r2 a).hIndex = r2.hIndex.or a.hIndex ∧
          (mergeUpdateAuthor r2 a).totalCitations = r2.totalCitations.or a.totalCitations ∧
          (mergeUpdateAuthor r2 a).middleNames = r2.middleNames.or a.middleNames ∧
          (a.department.isSome = true → (mergeUpdateAuthor r2 a).department.isSome = true) ∧
          (a.institution.isSome = true → (mergeUpdateAuthor r2 a).institution.isSome = true) ∧
          (a.hIndex.isSome = true → (mergeUpdateAuthor r2 a).hIndex.isSome = true) ∧
          (a.totalCitations.isSome = true →
            (mergeUpdateAuthor r2 a).totalCitations.isSome = true) ∧
          (a.middleNames.isSome = true → (mergeUpdateAuthor r2 a).middleNames.isSome = true)) := by
  intro s r1 r2 id1 s1 hg1 hf1 hgg hff hii hok
  have hnorm1 : normalizeNames r1 = .ok r1 := normalizeNames_of_truthy r1 hg1 hf1
  have hnorm2 : normalizeNames r2 = .ok r2 :=
    normalizeNames_of_truthy r2 (by rw [hgg]; exact hg1) (by rw [hff]; exact hf1)
  rcases hfind1 : findAuthor s (r1.givenName.getD "") (r1.familyName.getD "")
      r1.institution with _ | row
  · -- first call inserted a new row
    simp only [storeResearcher, storeResearcherRaced, hnorm1, hfind1, List.append_nil] at hok
    have hsR : ({ s with authors := s.authors } : DBState) = s := rfl
    rw [hsR] at hok
    by_cases hconf : authorIndexConflict s (r1.givenName.getD "") (r1.familyName.getD "")
        r1.institution = true
    · rw [if_pos hconf] at hok
      exact absurd hok (by simp)
    · rw [if_neg hconf] at hok
      simp only [Except.ok.injEq, Prod.mk.injEq] at hok
      obtain ⟨hid, hZ⟩ := hok
      set newRow : AuthorRow := ⟨freshId s, r1.givenName.getD "", r1.familyName.getD "",
        r1.middleNames, r1.nameSuffix, r1.department, r1.institution, r1.hIndex,
        r1.totalCitations⟩ with hnewRow
      have hs1auth : s1.authors = s.authors ++ [newRow] := by
        rw [← hZ]
        exact authors_after_orcid _ _ _ _ _
      have hallfail : ∀ x ∈ s.authors, (fun b : AuthorRow =>
          b.givenName == r1.givenName.getD "" && b.familyName == r1.familyName.getD "" &&
          instMatches b.institution r1.institution) x = false := by
        intro x hx
        exact Bool.eq_false_iff.mpr (List.find?_eq_none.mp hfind1 x hx)
      have hpnew : (fun b : AuthorRow =>
          b.givenName == r1.givenName.getD "" && b.familyName == r1.familyName.getD "" &&
          instMatches b.institution r1.institution) newRow = true := by
        simp only [hnewRow, Bool.and_eq_true, beq_self_eq_true, true_and]
        exact instMatches_refl r1.institution
      have hfind2 : findAuthor s1 (r1.givenName.getD "") (r1.familyName.getD "")
          r1.institution = some newRow := by
        simp only [findAuthor, hs1auth]
        exact find?_append_singleton _ s.authors newRow hallfail hpnew
      have hnid : newRow.id = id1 := hid
      have hrun : storeResearcher s1 r2 = .ok (id1, updateBranchState s1 r2 id1) := by
        simp only [storeResearcher, storeResearcherRaced, hnorm2, hgg, hff, hii, hfind2]
        rw [hid]
      refine ⟨updateBranchState s1 r2 id1, hrun, ?_, ?_,
        fun a => mergeUpdateAuthor_props r2 a⟩
      · exact updateBranchState_authors s1 r2 id1
      · rw [updateBranchState_authors s1 r2 id1]
        exact List.length_map _ _
  · -- first call found an existing row
    simp only [storeResearcher, storeResearcherRaced, hnorm1, hfind1] at hok
    simp only [Except.ok.injEq, Prod.mk.injEq] at hok
    obtain ⟨hid, hX⟩ := hok
    have hs1auth : s1.authors = s.authors.map (fun a =>
        if a.id == row.id then mergeUpdateAuthor r1 a else a) := by
      rw [← hX]
      exact updateBranchState_authors s r1 row.id
    have hfind1u : s.authors.find? (fun b : AuthorRow =>
        b.givenName == r1.givenName.getD "" && b.familyName == r1.familyName.getD "" &&
        instMatches b.institution r1.institution) = some row := hfind1
    have hprow := List.find?_some hfind1u
    have hrowφ : (fun b : AuthorRow =>
        b.givenName == r1.givenName.getD "" && b.familyName == r1.familyName.getD "" &&
        instMatches b.institution r1.institution)
        ((fun a => if a.id == row.id then mergeUpdateAuthor r1 a else a) row) = true := by
      simp only [beq_self_eq_true, if_true]
      simp only [Bool.and_eq_true] at hprow ⊢
      refine ⟨⟨hprow.1.1, hprow.1.2⟩, ?_⟩
      simp only [mergeUpdateAuthor]
      exact instMatches_or hprow.2
    have hflip : ∀ x, (fun b : AuthorRow =>
        b.givenName == r1.givenName.getD "" && b.familyName == r1.familyName.getD "" &&
        instMatches b.institution r1.institution) x = false →
        (fun b : AuthorRow =>
          b.givenName == r1.givenName.getD "" && b.familyName == r1.familyName.getD "" &&
          instMatches b.institution r1.institution)
          ((fun a => if a.id == row.id then mergeUpdateAuthor r1 a else a) x) = true →
        x.id = row.id := by
      intro x hx hφx
      by_cases hc : (x.id == row.id) = true
      · exact beq_iff_eq.mp hc
      · have hcf : (x.id == row.id) = false := Bool.eq_false_iff.mpr hc
        simp only [hcf, Bool.false_eq_true, if_false, hx] at hφx
    have hφid : ∀ x : AuthorRow,
        ((fun a => if a.id == row.id then mergeUpdateAuthor r1 a else a) x).id = x.id := by
      intro x
      by_cases hc : (x.id == row.id) = true
      · simp [hc, mergeUpdateAuthor]
      · simp [Bool.eq_false_iff.mpr hc]
    rcases find?_map_first
      (fun b : AuthorRow =>
        b.givenName == r1.givenName.getD "" && b.familyName == r1.familyName.getD "" &&
        instMatches b.institution r1.institution)
      (fun a => if a.id == row.id then mergeUpdateAuthor r1 a else a)
      hφid s.authors row hfind1u hrowφ hflip with ⟨row2, hfind2raw, hid2⟩
    have hfind2 : findAuthor s1 (r1.givenName.getD "") (r1.familyName.getD "")
        r1.institution = some row2 := by
      simp only [findAuthor, hs1auth]
      exact hfind2raw
    have hid21 : row2.id = id1 := hid2.trans hid
    have hrun : storeResearcher s1 r2 = .ok (id1, updateBranchState s1 r2 id1) := by
      simp only [storeResearcher, storeResearcherRaced, hnorm2, hgg, hff, hii, hfind2]
      rw [hid21]
    refine ⟨updateBranchState s1 r2 id1, hrun, ?_, ?_,
      fun a => mergeUpdateAuthor_props r2 a⟩
    · exact updateBranchState_authors s1 r2 id1
    · rw [updateBranchState_authors s1 r2 id1]
      exact List.length_map _ _

theorem c3_store_researcher_idempotent_witness :
    (storeResearcher
      { emptyDB with
        authors := [⟨"uuid-0", "John", "Smith", none, none, none, none, none, none⟩],
        nextId := 1 }
      ⟨none, some "John", some "Smith", none, none, none, none, none, none,
        none, none⟩).toOption.map Prod.fst = some "uuid-0" := by
  obtain ⟨s2, hrun, -, -, -⟩ := c3_store_researcher_idempotent emptyDB
    ⟨none, some "John", some "Smith", none, none, none, none, none, none, none, none⟩
    ⟨none, some "John", some "Smith", none, none, none, none, none, none, none, none⟩
    "uuid-0"
    { emptyDB with
      authors := [⟨"uuid-0", "John", "Smith", none, none, none, none, none, none⟩],
      nextId := 1 }
    (by decide) (by decide) rfl rfl rfl rfl
  rw [hrun]
  rfl

/-! ### C7: suffix handling in parse_academic_name -/

theorem contains_filter_dots (u : List Char)
    (h : suffixStrs.contains (u.map Char.toLower) = true) :
    suffixStrs.contains ((u.map Char.toLower).filter (fun c => c != '.')) = true := by
  simp only [suffixStrs, List.contains_cons, List.contains_nil, Bool.or_false,
    Bool.or_eq_true, beq_iff_eq] at h
  rcases h with h | h | h | h | h | h <;> rw [h] <;> decide

theorem claimIsSuffix_imp_codeIsSuffix (t : List Char) (h : claimIsSuffix t = true) :
    codeIsSuffix t = true := by
  unfold claimIsSuffix stripTrailingDot at h
  unfold codeIsSuffix
  by_cases hdot : t.getLast? = some '.'
  · rw [if_pos hdot] at h
    have hne : t ≠ [] := by
      intro he
      subst he
      simp at hdot
    have hlast : t.getLast hne = '.' := by
      have := List.getLast?_eq_getLast t hne
      rw [hdot] at this
      exact (Option.some.injEq _ _ |>.mp this).symm
    have ht : t.dropLast ++ ['.'] = t := by
      have := List.dropLast_append_getLast hne
      rwa [hlast] at this
    set u := t.dropLast with hu
    rw [← ht]
    have hmap : (u ++ ['.']).map Char.toLower = u.map Char.toLower ++ ['.'] := by
      rw [List.map_append]
      rfl
    rw [hmap, List.filter_append]
    have hdotgone : (['.'] : List Char).filter (fun c => c != '.') = [] := by decide
    rw [hdotgone, List.append_nil]
    exact contains_filter_dots u h
  · rw [if_neg hdot] at h
    exact contains_filter_dots t h

theorem splitWsCore_word (w : List Char) (hw : ∀ c ∈ w, c.isWhitespace = false) :
    ∀ l : List Char, splitWsCore (w ++ l) = (w ++ (splitWsCore l).1, (splitWsCore l).2) := by
  induction w with
  | nil => intro l; simp
  | cons c cs ih =>
    intro l
    have hc : c.isWhitespace = false := hw c (List.mem_cons_self _ _)
    have ih2 := ih (fun d hd => hw d (List.mem_cons_of_mem _ hd)) l
    calc splitWsCore ((c :: cs) ++ l)
        = (c :: (splitWsCore (cs ++ l)).1, (splitWsCore (cs ++ l)).2) := by
          simp only [List.cons_append, splitWsCore, hc, Bool.false_eq_true, if_false]
          rfl
      _ = (c :: (cs ++ (splitWsCore l).1), (splitWsCore l).2) := by rw [ih2]
      _ = ((c :: cs) ++ (splitWsCore l).1, (splitWsCore l).2) := rfl

theorem splitWsCore_space (l : List Char) :
    splitWsCore (' ' :: l) = ([], pySplitCL l) := by
  have hws : (' ' : Char).isWhitespace = true := by decide
  simp only [splitWsCore, pySplitCL, hws, if_true]

theorem splitWsCore_wf (l : List Char) :
    (∀ c ∈ (splitWsCore l).1, c.isWhitespace = false) ∧
    (∀ w ∈ (splitWsCore l).2, w ≠ [] ∧ ∀ c ∈ w, c.isWhitespace = false) := by
  induction l with
  | nil => exact ⟨by simp [splitWsCore], by simp [splitWsCore]⟩
  | cons c cs ih =>
    by_cases hc : c.isWhitespace = true
    · refine ⟨?_, ?_⟩
      · intro d hd
        simp only [splitWsCore, hc, if_true] at hd
        simp at hd
      · intro w hw
        simp only [splitWsCore, hc, if_true] at hw
        by_cases hfst : (splitWsCore cs).1 = []
        · rw [if_pos hfst] at hw
          exact ih.2 w hw
        · rw [if_neg hfst] at hw
          rcases List.mem_cons.mp hw with rfl | hmem
          · exact ⟨hfst, ih.1⟩
          · exact ih.2 w hmem
    · have hc2 : c.isWhitespace = false := Bool.eq_false_iff.mpr hc
      refine ⟨?_, ?_⟩
      · intro d hd
        simp only [splitWsCore, hc2, Bool.false_eq_true, if_false] at hd
        rcases List.mem_cons.mp hd with rfl | hmem
        · exact hc2
        · exact ih.1 d hmem
      · intro w hw
        simp only [splitWsCore, hc2, Bool.false_eq_true, if_false] at hw
        exact ih.2 w hw

theorem pySplitCL_wf (l : List Char) :
    ∀ w ∈ pySplitCL l, w ≠ [] ∧ ∀ c ∈ w, c.isWhitespace = false := by
  intro w hw
  unfold pySplitCL at hw
  by_cases hfst : (splitWsCore l).1 = []
  · rw [if_pos hfst] at hw
    exact (splitWsCore_wf l).2 w hw
  · rw [if_neg hfst] at hw
    rcases List.mem_cons.mp hw with rfl | hmem
    · exact ⟨hfst, (splitWsCore_wf l).1⟩
    · exact (splitWsCore_wf l).2 w hmem

theorem pySplitCL_joinSpace (ws : List (List Char))
    (h : ∀ w ∈ ws, w ≠ [] ∧ ∀ c ∈ w, c.isWhitespace = false) :
    pySplitCL (joinSpace ws) = ws := by
  induction ws with
  | nil => rfl
  | cons w ws2 ih =>
    have hw := h w (List.mem_cons_self _ _)
    have htail : ∀ x ∈ ws2, x ≠ [] ∧ ∀ c ∈ x, c.isWhitespace = false :=
      fun x hx => h x (List.mem_cons_of_mem _ hx)
    cases ws2 with
    | nil =>
      show pySplitCL w = [w]
      have h1 : splitWsCore (w ++ []) = (w ++ (splitWsCore []).1, (splitWsCore []).2) :=
        splitWsCore_word w hw.2 []
      rw [List.append_nil] at h1
      have h2 : splitWsCore ([] : List Char) = ([], []) := rfl
      rw [h2] at h1
      simp only [List.append_nil] at h1
      unfold pySplitCL
      rw [h1, if_neg hw.1]
    | cons x r =>
      show pySplitCL (w ++ ' ' :: joinSpace (x :: r)) = w :: x :: r
      have h1 := splitWsCore_word w hw.2 (' ' :: joinSpace (x :: r))
      rw [splitWsCore_space, ih htail] at h1
      simp only [List.append_nil] at h1
      unfold pySplitCL
      rw [h1, if_neg hw.1]

/-- Claim C7 counterexample: the single-token full name `"Jr"` passes the
claim's suffix test (last token, trailing dot stripped, case-insensitively
in the suffix set), yet `parse_academic_name` takes the single-word branch
and pops no suffix. -/
theorem c7_suffix_pop_counterexample :
    claimIsSuffix (pySplitCL "Jr".data).getLast! = true ∧
    parseAcademicName "Jr" = some ⟨"Jr", "Jr", none, none⟩ :=
  ⟨by decide, by decide⟩

/-- Claim C7 (amended): for every full name with at least two
whitespace-separated tokens whose last token, compared case-insensitively
with its trailing `"."` stripped, is in `{jr, sr, ii, iii, iv, v}`, the
parser pops that token into the suffix component and parses the remaining
tokens positionally: first remaining token = given name, last remaining
token = family name, tokens strictly between = middle names joined by
single spaces (absent when fewer than three tokens remain). -/
theorem c7_suffix_pop_amended :
    ∀ (fullName : String) (parts : List (List Char)),
      pySplitCL fullName.data = parts →
      2 ≤ parts.length →
      claimIsSuffix parts.getLast! = true →
      parseAcademicName fullName = some ⟨
        String.mk parts.dropLast.head!,
        String.mk parts.dropLast.getLast!,
        (if 2 < parts.dropLast.length then
          some (String.mk (joinSpace (parts.dropLast.drop 1).dropLast)) else none),
        some (String.mk parts.getLast!)⟩ := by
  intro fn parts hsplit hlen hsuf
  have hcode : codeIsSuffix parts.getLast! = true := claimIsSuffix_imp_codeIsSuffix _ hsuf
  have hrt : pySplitCL (joinSpace (pySplitCL fn.data)) = parts := by
    rw [pySplitCL_joinSpace (pySplitCL fn.data) (pySplitCL_wf fn.data)]
    exact hsplit
  unfold parseAcademicName
  rw [hrt]
  match parts, hlen, hcode with
  | a :: b :: rest, _, hcode2 =>
    simp only [hcode2, if_true]

theorem c7_suffix_pop_amended_witness :
    parseAcademicName "John Alan Smith Jr." =
      some ⟨"John", "Smith", some "Alan", some "Jr."⟩ :=
  c7_suffix_pop_amended "John Alan Smith Jr."
    ["John".data, "Alan".data, "Smith".data, "Jr.".data]
    rfl (by decide) (by decide)

/-! ### C1: generic facts about `UPDATE OR IGNORE` re-pointing -/

section UOILemmas

variable {α : Type} (refOf : α → String) (sndOf : α → String) (setRef : String → α → α)
variable (prim sec : String)

theorem uoiAux_mem_done :
    ∀ (todo done : List α) (x : α), x ∈ done →
      x ∈ uoiAux refOf sndOf setRef prim sec done todo := by
  intro todo
  induction todo with
  | nil =>
    intro done x hx
    simpa [uoiAux] using List.mem_reverse.mpr hx
  | cons r rest ih =>
    intro done x hx
    simp only [uoiAux]
    split
    · split
      · exact ih (r :: done) x (List.mem_cons_of_mem _ hx)
      · exact ih (_ :: done) x (List.mem_cons_of_mem _ hx)
    · exact ih (r :: done) x (List.mem_cons_of_mem _ hx)

theorem uoiAux_mem_notsec :
    ∀ (todo done : List α) (x : α), x ∈ todo → refOf x ≠ sec →
      x ∈ uoiAux refOf sndOf setRef prim sec done todo := by
  intro todo
  induction todo with
  | nil => intro done x hx _; simp at hx
  | cons r rest ih =>
    intro done x hx hxs
    rcases List.mem_cons.mp hx with rfl | hmem
    · have hc : (refOf x == sec) = false := by simp [hxs]
      simp only [uoiAux, hc, Bool.false_eq_true, if_false]
      exact uoiAux_mem_done refOf sndOf setRef prim sec rest (x :: done) x
        (List.mem_cons_self _ _)
    · simp only [uoiAux]
      split
      · split
        · exact ih (r :: done) x hmem hxs
        · exact ih (_ :: done) x hmem hxs
      · exact ih (r :: done) x hmem hxs

theorem uoiAux_prov :
    ∀ (todo done : List α) (x : α),
      x ∈ uoiAux refOf sndOf setRef prim sec done todo →
      x ∈ done ∨ x ∈ todo ∨ ∃ r ∈ todo, refOf r = sec ∧ x = setRef prim r := by
  intro todo
  induction todo with
  | nil =>
    intro done x hx
    simp only [uoiAux] at hx
    exact Or.inl (List.mem_reverse.mp hx)
  | cons r rest ih =>
    intro done x hx
    simp only [uoiAux] at hx
    split at hx
    · rename_i hcond
      split at hx
      · rcases ih (r :: done) x hx with hd | hd | ⟨r0, hr0, hrs, hset⟩
        · rcases List.mem_cons.mp hd with rfl | hd2
          · exact Or.inr (Or.inl (List.mem_cons_self _ _))
          · exact Or.inl hd2
        · exact Or.inr (Or.inl (List.mem_cons_of_mem _ hd))
        · exact Or.inr (Or.inr ⟨r0, List.mem_cons_of_mem _ hr0, hrs, hset⟩)
      · rcases ih (_ :: done) x hx with hd | hd | ⟨r0, hr0, hrs, hset⟩
        · rcases List.mem_cons.mp hd with rfl | hd2
          · exact Or.inr (Or.inr ⟨r, List.mem_cons_self _ _, beq_iff_eq.mp hcond, rfl⟩)
          · exact Or.inl hd2
        · exact Or.inr (Or.inl (List.mem_cons_of_mem _ hd))
        · exact Or.inr (Or.inr ⟨r0, List.mem_cons_of_mem _ hr0, hrs, hset⟩)
    · rcases ih (r :: done) x hx with hd | hd | ⟨r0, hr0, hrs, hset⟩
      · rcases List.mem_cons.mp hd with rfl | hd2
        · exact Or.inr (Or.inl (List.mem_cons_self _ _))
        · exact Or.inl hd2
      · exact Or.inr (Or.inl (List.mem_cons_of_mem _ hd))
      · exact Or.inr (Or.inr ⟨r0, List.mem_cons_of_mem _ hr0, hrs, hset⟩)

theorem uoiAux_image :
    ∀ (todo done : List α) (q : α), q ∈ todo →
      q ∈ uoiAux refOf sndOf setRef prim sec done todo ∨
      setRef prim q ∈ uoiAux refOf sndOf setRef prim sec done todo := by
  intro todo
  induction todo with
  | nil => intro done q hq; simp at hq
  | cons r rest ih =>
    intro done q hq
    rcases List.mem_cons.mp hq with rfl | hmem
    · simp only [uoiAux]
      split
      · split
        · exact Or.inl (uoiAux_mem_done refOf sndOf setRef prim sec rest (q :: done) q
            (List.mem_cons_self _ _))
        · exact Or.inr (uoiAux_mem_done refOf sndOf setRef prim sec rest (_ :: done) _
            (List.mem_cons_self _ _))
      · exact Or.inl (uoiAux_mem_done refOf sndOf setRef prim sec rest (q :: done) q
          (List.mem_cons_self _ _))
    · simp only [uoiAux]
      split
      · split
        · exact ih (r :: done) q hmem
        · exact ih (_ :: done) q hmem
      · exact ih (r :: done) q hmem

end UOILemmas

section UOILemmas2

variable {α : Type} (refOf : α → String) (sndOf : α → String) (setRef : String → α → α)
variable (prim sec : String)

theorem uoiAux_witness (hne : prim ≠ sec)
    (href : ∀ a r, refOf (setRef a r) = a)
    (hsnd : ∀ a r, sndOf (setRef a r) = sndOf r) :
    ∀ (todo done : List α),
      (∀ x ∈ done, refOf x = sec →
        ∃ q, (q ∈ done ∨ q ∈ todo) ∧ refOf q = prim ∧ sndOf q = sndOf x) →
      ∀ x ∈ uoiAux refOf sndOf setRef prim sec done todo, refOf x = sec →
        ∃ q ∈ uoiAux refOf sndOf setRef prim sec done todo,
          refOf q = prim ∧ sndOf q = sndOf x := by
  intro todo
  induction todo with
  | nil =>
    intro done hinv x hx hxs
    simp only [uoiAux] at hx ⊢
    rcases hinv x (List.mem_reverse.mp hx) hxs with ⟨q, hq | hq, hprops⟩
    · exact ⟨q, List.mem_reverse.mpr hq, hprops⟩
    · simp at hq
  | cons r rest ih =>
    intro done hinv x hx hxs
    simp only [uoiAux] at hx ⊢
    by_cases hcond : (refOf r == sec) = true
    · rw [if_pos hcond] at hx ⊢
      by_cases hconf : ((done ++ rest).any fun q =>
          refOf q == refOf (setRef prim r) && sndOf q == sndOf (setRef prim r)) = true
      · -- conflict: r is kept, still pointing at sec
        rw [if_pos hconf] at hx ⊢
        rcases List.any_eq_true.mp hconf with ⟨q0, hq0mem, hq0p⟩
        simp only [Bool.and_eq_true, beq_iff_eq] at hq0p
        rw [href, hsnd] at hq0p
        have hinv2 : ∀ y ∈ r :: done, refOf y = sec →
            ∃ q, (q ∈ r :: done ∨ q ∈ rest) ∧ refOf q = prim ∧ sndOf q = sndOf y := by
          intro y hy hys
          rcases List.mem_cons.mp hy with rfl | hyd
          · refine ⟨q0, ?_, hq0p.1, hq0p.2⟩
            rcases List.mem_append.mp hq0mem with h | h
            · exact Or.inl (List.mem_cons_of_mem _ h)
            · exact Or.inr h
          · rcases hinv y hyd hys with ⟨q, hq | hq, hprops⟩
            · exact ⟨q, Or.inl (List.mem_cons_of_mem _ hq), hprops⟩
            · rcases List.mem_cons.mp hq with rfl | hq2
              · exact ⟨q, Or.inl (List.mem_cons_self _ _), hprops⟩
              · exact ⟨q, Or.inr hq2, hprops⟩
        exact ih (r :: done) hinv2 x hx hxs
      · -- no conflict: r is re-pointed to prim
        rw [if_neg hconf] at hx ⊢
        have hinv2 : ∀ y ∈ setRef prim r :: done, refOf y = sec →
            ∃ q, (q ∈ setRef prim r :: done ∨ q ∈ rest) ∧ refOf q = prim ∧ sndOf q = sndOf y := by
          intro y hy hys
          rcases List.mem_cons.mp hy with rfl | hyd
          · rw [href] at hys
            exact absurd hys hne
          · rcases hinv y hyd hys with ⟨q, hq | hq, hprops⟩
            · exact ⟨q, Or.inl (List.mem_cons_of_mem _ hq), hprops⟩
            · rcases List.mem_cons.mp hq with rfl | hq2
              · rw [beq_iff_eq.mp hcond] at hprops
                exact absurd hprops.1.symm hne
              · exact ⟨q, Or.inr hq2, hprops⟩
        exact ih (_ :: done) hinv2 x hx hxs
    · -- head does not reference sec
      rw [if_neg hcond] at hx ⊢
      have hrns : refOf r ≠ sec := by simpa using hcond
      have hinv2 : ∀ y ∈ r :: done, refOf y = sec →
          ∃ q, (q ∈ r :: done ∨ q ∈ rest) ∧ refOf q = prim ∧ sndOf q = sndOf y := by
        intro y hy hys
        rcases List.mem_cons.mp hy with rfl | hyd
        · exact absurd hys hrns
        · rcases hinv y hyd hys with ⟨q, hq | hq, hprops⟩
          · exact ⟨q, Or.inl (List.mem_cons_of_mem _ hq), hprops⟩
          · rcases List.mem_cons.mp hq with rfl | hq2
            · exact ⟨q, Or.inl (List.mem_cons_self _ _), hprops⟩
            · exact ⟨q, Or.inr hq2, hprops⟩
      exact ih (r :: done) hinv2 x hx hxs

end UOILemmas2

section UOILemmas3

variable {α : Type} (refOf : α → String) (sndOf : α → String) (setRef : String → α → α)
variable (prim sec : String)

theorem pwKeys_symmRel :
    ∀ {x y : α}, ¬(refOf x = refOf y ∧ sndOf x = sndOf y) →
      ¬(refOf y = refOf x ∧ sndOf y = sndOf x) :=
  fun h hc => h ⟨hc.1.symm, hc.2.symm⟩

theorem pwKeys_middle (done rest : List α) (h0 : α)
    (hpw : pwKeys refOf sndOf (done ++ h0 :: rest)) :
    pwKeys refOf sndOf (h0 :: (done ++ rest)) := by
  unfold pwKeys at *
  exact (List.Perm.pairwise_iff (pwKeys_symmRel refOf sndOf) List.perm_middle).mp hpw

theorem pwKeys_update_head
    (done rest : List α) (h0 : α)
    (hpw : pwKeys refOf sndOf (done ++ h0 :: rest))
    (hconf : ((done ++ rest).any fun q =>
        refOf q == refOf (setRef prim h0) && sndOf q == sndOf (setRef prim h0)) = false) :
    pwKeys refOf sndOf ((setRef prim h0 :: done) ++ rest) := by
  have hmid := pwKeys_middle refOf sndOf done rest h0 hpw
  unfold pwKeys at *
  rw [List.pairwise_cons] at hmid
  show List.Pairwise _ (setRef prim h0 :: (done ++ rest))
  rw [List.pairwise_cons]
  constructor
  · intro q hq hcontr
    have : ((done ++ rest).any fun q =>
        refOf q == refOf (setRef prim h0) && sndOf q == sndOf (setRef prim h0)) = true := by
      apply List.any_eq_true.mpr
      refine ⟨q, hq, ?_⟩
      simp only [Bool.and_eq_true, beq_iff_eq]
      exact ⟨hcontr.1.symm, hcontr.2.symm⟩
    rw [this] at hconf
    exact absurd hconf (by simp)
  · exact hmid.2

theorem uoiAux_update (hne : prim ≠ sec)
    (href : ∀ a r, refOf (setRef a r) = a)
    (hsnd : ∀ a r, sndOf (setRef a r) = sndOf r) :
    ∀ (todo done : List α) (r : α),
      pwKeys refOf sndOf (done ++ todo) →
      r ∈ todo → refOf r = sec →
      (∀ q, (q ∈ done ∨ q ∈ todo) → ¬(refOf q = prim ∧ sndOf q = sndOf r)) →
      setRef prim r ∈ uoiAux refOf sndOf setRef prim sec done todo := by
  intro todo
  induction todo with
  | nil => intro done r _ hr; simp at hr
  | cons h0 rest ih =>
    intro done r hpw hr hrs hnocon
    rcases List.mem_cons.mp hr with rfl | hmem
    · -- r is the head: it is re-pointed here
      have hcond : (refOf r == sec) = true := by simp [hrs]
      have hconf : ((done ++ rest).any fun q =>
          refOf q == refOf (setRef prim r) && sndOf q == sndOf (setRef prim r)) = false := by
        apply Bool.eq_false_iff.mpr
        intro htrue
        rcases List.any_eq_true.mp htrue with ⟨q, hqmem, hqp⟩
        simp only [Bool.and_eq_true, beq_iff_eq] at hqp
        rw [href, hsnd] at hqp
        apply hnocon q _ hqp
        rcases List.mem_append.mp hqmem with h | h
        · exact Or.inl h
        · exact Or.inr (List.mem_cons_of_mem _ h)
      simp only [uoiAux]
      rw [if_pos hcond, if_neg (by simp [hconf])]
      exact uoiAux_mem_done refOf sndOf setRef prim sec rest (setRef prim r :: done) _
        (List.mem_cons_self _ _)
    · -- r is deeper in the list: step over the head
      have hpw1 : pwKeys refOf sndOf ((h0 :: done) ++ rest) :=
        pwKeys_middle refOf sndOf done rest h0 hpw
      have hnocon1 : ∀ q, (q ∈ h0 :: done ∨ q ∈ rest) →
          ¬(refOf q = prim ∧ sndOf q = sndOf r) := by
        intro q hq
        rcases hq with hq | hq
        · rcases List.mem_cons.mp hq with rfl | hq2
          · exact hnocon q (Or.inr (List.mem_cons_self _ _))
          · exact hnocon q (Or.inl hq2)
        · exact hnocon q (Or.inr (List.mem_cons_of_mem _ hq))
      simp only [uoiAux]
      by_cases hcond : (refOf h0 == sec) = true
      · rw [if_pos hcond]
        by_cases hconf : ((done ++ rest).any fun q =>
            refOf q == refOf (setRef prim h0) && sndOf q == sndOf (setRef prim h0)) = true
        · rw [if_pos hconf]
          exact ih (h0 :: done) r hpw1 hmem hrs hnocon1
        · rw [if_neg hconf]
          have hconf2 : ((done ++ rest).any fun q =>
              refOf q == refOf (setRef prim h0) && sndOf q == sndOf (setRef prim h0)) = false :=
            Bool.eq_false_iff.mpr hconf
          have hpw2 : pwKeys refOf sndOf ((setRef prim h0 :: done) ++ rest) :=
            pwKeys_update_head refOf sndOf setRef prim done rest h0 hpw hconf2
          have hsnd0 : sndOf h0 ≠ sndOf r := by
            have hmid := pwKeys_middle refOf sndOf done rest h0 hpw
            unfold pwKeys at hmid
            rw [List.pairwise_cons] at hmid
            have hrel := hmid.1 r (List.mem_append.mpr (Or.inr hmem))
            intro hsnds
            exact hrel ⟨by rw [beq_iff_eq.mp hcond, hrs], hsnds⟩
          have hnocon2 : ∀ q, (q ∈ setRef prim h0 :: done ∨ q ∈ rest) →
              ¬(refOf q = prim ∧ sndOf q = sndOf r) := by
            intro q hq
            rcases hq with hq | hq
            · rcases List.mem_cons.mp hq with rfl | hq2
              · intro hcontr
                rw [hsnd] at hcontr
                exact hsnd0 hcontr.2
              · exact hnocon q (Or.inl hq2)
            · exact hnocon q (Or.inr (List.mem_cons_of_mem _ hq))
          exact ih (setRef prim h0 :: done) r hpw2 hmem hrs hnocon2
      · rw [if_neg hcond]
        exact ih (h0 :: done) r hpw1 hmem hrs hnocon1

theorem uoiAux_pwKeys
    (href : ∀ a r, refOf (setRef a r) = a)
    (hsnd : ∀ a r, sndOf (setRef a r) = sndOf r) :
    ∀ (todo done : List α), pwKeys refOf sndOf (done ++ todo) →
      pwKeys refOf sndOf (uoiAux refOf sndOf setRef prim sec done todo) := by
  intro todo
  induction todo with
  | nil =>
    intro done hpw
    simp only [uoiAux]
    rw [List.append_nil] at hpw
    unfold pwKeys at *
    exact (List.Perm.pairwise_iff (pwKeys_symmRel refOf sndOf)
      (List.reverse_perm done)).mpr hpw
  | cons h0 rest ih =>
    intro done hpw
    have hpw1 : pwKeys refOf sndOf ((h0 :: done) ++ rest) :=
      pwKeys_middle refOf sndOf done rest h0 hpw
    simp only [uoiAux]
    by_cases hcond : (refOf h0 == sec) = true
    · rw [if_pos hcond]
      by_cases hconf : ((done ++ rest).any fun q =>
          refOf q == refOf (setRef prim h0) && sndOf q == sndOf (setRef prim h0)) = true
      · rw [if_pos hconf]
        exact ih (h0 :: done) hpw1
      · rw [if_neg hconf]
        exact ih (setRef prim h0 :: done)
          (pwKeys_update_head refOf sndOf setRef prim done rest h0 hpw
            (Bool.eq_false_iff.mpr hconf))
    · rw [if_neg hcond]
      exact ih (h0 :: done) hpw1

end UOILemmas3

/-! ### C1: merge execution -/

/-- C1 (counterexample). Claim: after processing an approved merge
candidate, every dependent row that referenced the secondary id references
the primary id and no row anywhere still references the secondary id.
Refuted: with authors `a`, `b` both linked to publication `p`, the approved
merge of `b` into `a` deletes author `b` and marks the candidate completed,
but `UPDATE OR IGNORE` skips the `(b, p)` authorship row because `(a, p)`
already exists, so `(b, p)` survives, an orphan referencing the deleted
secondary id. -/
theorem c1_merge_counterexample :
    let s : DBState := { emptyDB with
      authors := [⟨"a", "Ann", "Ada", none, none, none, none, none, none⟩,
                  ⟨"b", "Ann", "Ada", none, none, none, none, none, none⟩],
      authorPubs := [⟨"a", "p"⟩, ⟨"b", "p"⟩],
      mergeCands := [⟨"a", "b", "shared ORCID", 1, "approved"⟩] }
    let t := processApprovedMerges s
    ((t.authors.any fun r => r.id == "b") = false) ∧
    ((t.mergeCands.any fun mc =>
      mc.primaryId == "a" && mc.secondaryId == "b" && mc.status == "completed") = true) ∧
    (⟨"b", "p"⟩ : APRow) ∈ t.authorPubs := by
  decide

/-- C1 (amended). For a single approved merge candidate `(prim, sec)`
with `prim ≠ sec`, the merge execution step: (0) applies exactly one merge;
then in the resulting state (1) no author row carries the secondary id and
(2) the matching candidates are marked completed. For the dependent tables
the re-pointing is only best-effort, because every transfer statement runs
with `OR IGNORE` under a composite primary key: (3) an `author_identifiers`
row still referencing `sec` after the merge was already present before it
and coexists with a row of the same identifier type owned by `prim`;
(4) an identifiers row of `sec` whose type is not yet taken by `prim` is
re-pointed to `prim`; (5)–(6) the same two statements for
`author_publications`; (7) an `author_fields` row still referencing `sec`
coexists with a `prim` row for the same field; (8) a collaborations row
still referencing `sec` on the `author2` side coexists with a `prim` row
for the same `author1`; (9) a collaborations row still referencing `sec`
on the `author1` side coexists with some row whose `author1` is `prim`. -/
theorem c1_merge_execution_amended
    (s : DBState) (prim sec : String) (mc0 : MCRow)
    (hne : prim ≠ sec)
    (hone : s.mergeCands.filter (fun mc => mc.status == "approved") = [mc0])
    (hp : mc0.primaryId = prim) (hs : mc0.secondaryId = sec) :
    processApprovedMerges s = applyMerge prim sec s ∧
    (∀ a ∈ (applyMerge prim sec s).authors, a.id ≠ sec) ∧
    (∀ mc ∈ s.mergeCands, mc.primaryId = prim → mc.secondaryId = sec →
      { mc with status := "completed" } ∈ (applyMerge prim sec s).mergeCands) ∧
    (∀ r ∈ (applyMerge prim sec s).identifiers, r.authorId = sec →
      r ∈ s.identifiers ∧
      ∃ q ∈ (applyMerge prim sec s).identifiers,
        q.authorId = prim ∧ q.idType = r.idType) ∧
    (pwKeys (fun r : IdRow => r.authorId) (fun r => r.idType) s.identifiers →
      ∀ r ∈ s.identifiers, r.authorId = sec →
      (∀ q ∈ s.identifiers, ¬(q.authorId = prim ∧ q.idType = r.idType)) →
      { r with authorId := prim } ∈ (applyMerge prim sec s).identifiers) ∧
    (∀ r ∈ (applyMerge prim sec s).authorPubs, r.authorId = sec →
      r ∈ s.authorPubs ∧
      ∃ q ∈ (applyMerge prim sec s).authorPubs,
        q.authorId = prim ∧ q.pubId = r.pubId) ∧
    (pwKeys (fun r : APRow => r.authorId) (fun r => r.pubId) s.authorPubs →
      ∀ r ∈ s.authorPubs, r.authorId = sec →
      (∀ q ∈ s.authorPubs, ¬(q.authorId = prim ∧ q.pubId = r.pubId)) →
      { r with authorId := prim } ∈ (applyMerge prim sec s).authorPubs) ∧
    (∀ r ∈ (applyMerge prim sec s).authorFields, r.authorId = sec →
      ∃ q ∈ (applyMerge prim sec s).authorFields,
        q.authorId = prim ∧ q.fieldId = r.fieldId) ∧
    (∀ r ∈ (applyMerge prim sec s).collabs, r.author2Id = sec →
      ∃ q ∈ (applyMerge prim sec s).collabs,
        q.author2Id = prim ∧ q.author1Id = r.author1Id) ∧
    (∀ r ∈ (applyMerge prim sec s).collabs, r.author1Id = sec →
      ∃ q ∈ (applyMerge prim sec s).collabs, q.author1Id = prim) := by
  have hauth : (applyMerge prim sec s).authors =
      s.authors.filter (fun a => !(a.id == sec)) := rfl
  have hmceq : (applyMerge prim sec s).mergeCands =
      s.mergeCands.map (fun mc =>
        if mc.primaryId == prim && mc.secondaryId == sec then
          { mc with status := "completed" } else mc) := rfl
  have hideq : (applyMerge prim sec s).identifiers =
      uoiAux (fun r : IdRow => r.authorId) (fun r => r.idType)
        (fun a r => { r with authorId := a }) prim sec [] s.identifiers := rfl
  have hapeq : (applyMerge prim sec s).authorPubs =
      uoiAux (fun r : APRow => r.authorId) (fun r => r.pubId)
        (fun a r => { r with authorId := a }) prim sec [] s.authorPubs := rfl
  have hafeq : (applyMerge prim sec s).authorFields =
      uoiAux (fun r : AFRow => r.authorId) (fun r => r.fieldId)
        (fun a r => { r with authorId := a }) prim sec [] s.authorFields := rfl
  have hcoleq : (applyMerge prim sec s).collabs =
      uoiAux (fun r : CollabRow => r.author2Id) (fun r => r.author1Id)
        (fun a r => { r with author2Id := a }) prim sec []
        (uoiAux (fun r : CollabRow => r.author1Id) (fun r => r.author2Id)
          (fun a r => { r with author1Id := a }) prim sec [] s.collabs) := rfl
  refine ⟨?_, ?_, ?_, ?_, ?_, ?_, ?_, ?_, ?_, ?_⟩
  · -- (0) the merge list is the singleton (prim, sec)
    show processApprovedMerges s = applyMerge prim sec s
    simp only [processApprovedMerges]
    rw [hone]
    simp only [List.map_cons, List.map_nil, List.foldl_cons, List.foldl_nil, hp, hs]
  · -- (1) the secondary author row is deleted
    intro a ha heq
    rw [hauth] at ha
    have h2 := (List.mem_filter.mp ha).2
    rw [heq] at h2
    simp at h2
  · -- (2) matching candidates are marked completed
    intro mc hmc hmp hms
    rw [hmceq]
    refine List.mem_map.mpr ⟨mc, hmc, ?_⟩
    simp [hmp, hms]
  · -- (3) identifiers: surviving sec rows are pre-existing and have a prim partner
    intro r hr hrs
    rw [hideq] at hr
    constructor
    · rcases uoiAux_prov (fun r : IdRow => r.authorId) (fun r => r.idType)
        (fun a r => { r with authorId := a }) prim sec s.identifiers [] r hr with
        h | h | ⟨r0, _, _, hset⟩
      · simp at h
      · exact h
      · rw [hset] at hrs
        exact absurd hrs hne
    · obtain ⟨q, hq, hqp⟩ := uoiAux_witness (fun r : IdRow => r.authorId)
        (fun r => r.idType) (fun a r => { r with authorId := a }) prim sec hne
        (fun _ _ => rfl) (fun _ _ => rfl) s.identifiers []
        (fun x hx _ => absurd hx (List.not_mem_nil x)) r hr hrs
      exact ⟨q, by rw [hideq]; exact hq, hqp.1, hqp.2⟩
  · -- (4) identifiers: conflict-free sec rows are re-pointed
    intro hpw r hrmem hrs hnocon
    rw [hideq]
    exact uoiAux_update (fun r : IdRow => r.authorId) (fun r => r.idType)
      (fun a r => { r with authorId := a }) prim sec hne
      (fun _ _ => rfl) (fun _ _ => rfl) s.identifiers [] r hpw hrmem hrs
      (fun q hq => hq.elim (fun h => absurd h (List.not_mem_nil q)) (fun h => hnocon q h))
  · -- (5) authorships: surviving sec rows are pre-existing and have a prim partner
    intro r hr hrs
    rw [hapeq] at hr
    constructor
    · rcases uoiAux_prov (fun r : APRow => r.authorId) (fun r => r.pubId)
        (fun a r => { r with authorId := a }) prim sec s.authorPubs [] r hr with
        h | h | ⟨r0, _, _, hset⟩
      · simp at h
      · exact h
      · rw [hset] at hrs
        exact absurd hrs hne
    · obtain ⟨q, hq, hqp⟩ := uoiAux_witness (fun r : APRow => r.authorId)
        (fun r => r.pubId) (fun a r => { r with authorId := a }) prim sec hne
        (fun _ _ => rfl) (fun _ _ => rfl) s.authorPubs []
        (fun x hx _ => absurd hx (List.not_mem_nil x)) r hr hrs
      exact ⟨q, by rw [hapeq]; exact hq, hqp.1, hqp.2⟩
  · -- (6) authorships: conflict-free sec rows are re-pointed
    intro hpw r hrmem hrs hnocon
    rw [hapeq]
    exact uoiAux_update (fun r : APRow => r.authorId) (fun r => r.pubId)
      (fun a r => { r with authorId := a }) prim sec hne
      (fun _ _ => rfl) (fun _ _ => rfl) s.authorPubs [] r hpw hrmem hrs
      (fun q hq => hq.elim (fun h => absurd h (List.not_mem_nil q)) (fun h => hnocon q h))
  · -- (7) field rows: surviving sec rows have a prim partner
    intro r hr hrs
    rw [hafeq] at hr
    obtain ⟨q, hq, hqp⟩ := uoiAux_witness (fun r : AFRow => r.authorId)
      (fun r => r.fieldId) (fun a r => { r with authorId := a }) prim sec hne
      (fun _ _ => rfl) (fun _ _ => rfl) s.authorFields []
      (fun x hx _ => absurd hx (List.not_mem_nil x)) r hr hrs
    exact ⟨q, by rw [hafeq]; exact hq, hqp.1, hqp.2⟩
  · -- (8) collaborations, author2 side: surviving sec rows have a prim partner
    intro r hr hrs
    rw [hcoleq] at hr
    obtain ⟨q, hq, hqp⟩ := uoiAux_witness (fun r : CollabRow => r.author2Id)
      (fun r => r.author1Id) (fun a r => { r with author2Id := a }) prim sec hne
      (fun _ _ => rfl) (fun _ _ => rfl)
      (uoiAux (fun r : CollabRow => r.author1Id) (fun r => r.author2Id)
        (fun a r => { r with author1Id := a }) prim sec [] s.collabs) []
      (fun x hx _ => absurd hx (List.not_mem_nil x)) r hr hrs
    exact ⟨q, by rw [hcoleq]; exact hq, hqp.1, hqp.2⟩
  · -- (9) collaborations, author1 side: some row carries prim on the author1 side
    intro r hr hr1
    rw [hcoleq] at hr
    have hr1mem : ∃ r1, r1 ∈ uoiAux (fun r : CollabRow => r.author1Id)
        (fun r => r.author2Id) (fun a r => { r with author1Id := a }) prim sec []
        s.collabs ∧ r1.author1Id = sec := by
      rcases uoiAux_prov (fun r : CollabRow => r.author2Id) (fun r => r.author1Id)
        (fun a r => { r with author2Id := a }) prim sec
        (uoiAux (fun r : CollabRow => r.author1Id) (fun r => r.author2Id)
          (fun a r => { r with author1Id := a }) prim sec [] s.collabs) [] r hr with
        h | h | ⟨r0, hr0, _, hset⟩
      · simp at h
      · exact ⟨r, h, hr1⟩
      · rw [hset] at hr1
        exact ⟨r0, hr0, hr1⟩
    obtain ⟨r1, hr1m, hr1s⟩ := hr1mem
    obtain ⟨q, hq, hqp⟩ := uoiAux_witness (fun r : CollabRow => r.author1Id)
      (fun r => r.author2Id) (fun a r => { r with author1Id := a }) prim sec hne
      (fun _ _ => rfl) (fun _ _ => rfl) s.collabs []
      (fun x hx _ => absurd hx (List.not_mem_nil x)) r1 hr1m hr1s
    rcases uoiAux_image (fun r : CollabRow => r.author2Id) (fun r => r.author1Id)
      (fun a r => { r with author2Id := a }) prim sec
      (uoiAux (fun r : CollabRow => r.author1Id) (fun r => r.author2Id)
        (fun a r => { r with author1Id := a }) prim sec [] s.collabs) [] q hq with
      h | h
    · exact ⟨q, by rw [hcoleq]; exact h, hqp.1⟩
    · exact ⟨{ q with author2Id := prim }, by rw [hcoleq]; exact h, hqp.1⟩

/-- C1 (witness). Concrete run of the amended theorem: one approved
candidate merging `b` into `a`, with `b` owning an ORCID row and no
conflicting row for `a`; the merge applies once and the ORCID row is
re-pointed to `a`. -/
theorem c1_merge_execution_amended_witness :
    processApprovedMerges { emptyDB with
        identifiers := [⟨"b", "orcid", "0000-0001", none, "verified", none⟩],
        mergeCands := [⟨"a", "b", "shared ORCID", 1, "approved"⟩] } =
      applyMerge "a" "b" { emptyDB with
        identifiers := [⟨"b", "orcid", "0000-0001", none, "verified", none⟩],
        mergeCands := [⟨"a", "b", "shared ORCID", 1, "approved"⟩] } ∧
    (⟨"a", "orcid", "0000-0001", none, "verified", none⟩ : IdRow) ∈
      (applyMerge "a" "b" { emptyDB with
        identifiers := [⟨"b", "orcid", "0000-0001", none, "verified", none⟩],
        mergeCands := [⟨"a", "b", "shared ORCID", 1, "approved"⟩] }).identifiers := by
  obtain ⟨h0, _, _, _, hsucc, _⟩ := c1_merge_execution_amended
    { emptyDB with
      identifiers := [⟨"b", "orcid", "0000-0001", none, "verified", none⟩],
      mergeCands := [⟨"a", "b", "shared ORCID", 1, "approved"⟩] }
    "a" "b" ⟨"a", "b", "shared ORCID", 1, "approved"⟩ (by decide) (by decide) rfl rfl
  refine ⟨h0, ?_⟩
  exact hsucc (by unfold pwKeys; exact List.pairwise_singleton _ _)
    ⟨"b", "orcid", "0000-0001", none, "verified", none⟩
    (List.mem_singleton.mpr rfl) rfl (by decide)
